import Mathlib

/-!
Verification of the WASI capability-secured host-call layer: the AEAD
crypto host calls (`crates/wasi-common/src/hostcalls_impl/crypto.rs`,
`crates/wasi-common/src/cipherentry.rs`) and the context builder
(`crates/wasi-c2/src/ctx.rs`).

The guest-memory marshaling layer (`memory.rs`), the resource table and
the openssl AEAD engine are not part of the provided sources; they are
modelled from the specification (each such definition carries a
`Modelled from the spec:` doc comment).  Guest memory is a `List Nat` of
bytes, machine integers are `Nat` with explicit bounds where relevant,
and fallible operations return `Except`.
-/

/-- Error codes returned across the host-call boundary (`Error` in the
source; only the variants used by the modelled code paths appear). -/
inductive Error where
  | EILSEQ
  | ENOTSUP
  | EINVAL
  | ENOSYS
  | EFAULT
  | EBADF
  | EMFILE
deriving DecidableEq

/-- Second and later bytes of a multi-byte UTF-8 sequence lie in 0x80..0xBF. -/
def utf8Cont (b : Nat) : Bool := 128 ≤ b && b ≤ 191

/-- Validity of a byte string as UTF-8, mirroring `str::from_utf8`
(which fails exactly on invalid UTF-8): ASCII bytes stand alone,
2-to-4-byte sequences have the standard lead-byte ranges, overlong
encodings, surrogates and values above U+10FFFF are rejected. -/
def isValidUtf8 : List Nat → Bool
  | [] => true
  | b :: rest =>
    if b ≤ 127 then isValidUtf8 rest
    else if 194 ≤ b && b ≤ 223 then
      match rest with
      | c :: r => utf8Cont c && isValidUtf8 r
      | [] => false
    else if b == 224 then
      match rest with
      | c :: d :: r => (160 ≤ c && c ≤ 191) && utf8Cont d && isValidUtf8 r
      | _ => false
    else if (225 ≤ b && b ≤ 236) || b == 238 || b == 239 then
      match rest with
      | c :: d :: r => utf8Cont c && utf8Cont d && isValidUtf8 r
      | _ => false
    else if b == 237 then
      match rest with
      | c :: d :: r => (128 ≤ c && c ≤ 159) && utf8Cont d && isValidUtf8 r
      | _ => false
    else if b == 240 then
      match rest with
      | c :: d :: e :: r => (144 ≤ c && c ≤ 191) && utf8Cont d && utf8Cont e && isValidUtf8 r
      | _ => false
    else if 241 ≤ b && b ≤ 243 then
      match rest with
      | c :: d :: e :: r => utf8Cont c && utf8Cont d && utf8Cont e && isValidUtf8 r
      | _ => false
    else if b == 244 then
      match rest with
      | c :: d :: e :: r => (128 ≤ c && c ≤ 143) && utf8Cont d && utf8Cont e && isValidUtf8 r
      | _ => false
    else false

namespace WasiCrypto

/-- Bytes of guest linear memory in the range `[p, p + n)` (shorter if the
range runs past the end of memory; callers guard with bounds checks). -/
def readBytes (mem : List Nat) (p n : Nat) : List Nat := (mem.drop p).take n

/-- Guest memory with the bytes of `d` written in place starting at `p`. -/
def writeBytes (mem : List Nat) (p : Nat) (d : List Nat) : List Nat :=
  mem.take p ++ d ++ mem.drop (p + d.length)

/-- Disjointness of the byte ranges `[a, a+al)` and `[b, b+bl)`. -/
def Disj (a al b bl : Nat) : Prop := a + al ≤ b ∨ b + bl ≤ a

instance (a al b bl : Nat) : Decidable (Disj a al b bl) :=
  inferInstanceAs (Decidable (Or _ _))

/-- Modelled from the spec: `dec_slice_of_u8` of the Guest Memory View
returns a validated byte slice over guest memory, or fails out-of-bounds
if the range exceeds the guest memory size. -/
def dec_slice_of_u8 (memory : List Nat) (ptr len : Nat) : Except Error (List Nat) :=
  if ptr + len ≤ memory.length then .ok (readBytes memory ptr len) else .error .EFAULT

/-- Modelled from the spec: `enc_slice_of_u8` of the Guest Memory View
writes a byte sequence into a validated destination range, failing
out-of-bounds the same way as decoding. -/
def enc_slice_of_u8 (memory : List Nat) (data : List Nat) (ptr : Nat) : Except Error (List Nat) :=
  if ptr + data.length ≤ memory.length then .ok (writeBytes memory ptr data) else .error .EFAULT

/-- A scatter/gather descriptor: one contiguous region of guest memory,
`__wasi_iovec_t` in the source (a `buf` offset and a `buf_len`). -/
structure Iovec where
  buf : Nat
  buf_len : Nat
deriving DecidableEq

/-- Little-endian 32-bit value of a list of (at most four) bytes. -/
def le32 : List Nat → Nat
  | [a, b, c, d] => a + 256 * b + 65536 * c + 16777216 * d
  | _ => 0

/-- Little-endian read of a `u32` at guest offset `p`. -/
def readLe32 (mem : List Nat) (p : Nat) : Nat := le32 (readBytes mem p 4)

/-- Little-endian byte encoding of a `u32`. -/
def le32Bytes (n : Nat) : List Nat :=
  [n % 256, n / 256 % 256, n / 65536 % 256, n / 16777216 % 256]

/-- Modelled from the spec: the element decoding step of
`dec_iovec_slice` — each `(offset, length)` pair read from the guest
array is independently bounds-validated against guest memory. -/
def decIovecsAux (mem : List Nat) : Nat → Nat → Except Error (List Iovec)
  | _, 0 => .ok []
  | ptr, n + 1 =>
    let buf := readLe32 mem ptr
    let buf_len := readLe32 mem (ptr + 4)
    if buf + buf_len ≤ mem.length then
      match decIovecsAux mem (ptr + 8) n with
      | .ok rest => .ok (⟨buf, buf_len⟩ :: rest)
      | .error e => .error e
    else .error .EFAULT

/-- Modelled from the spec: `dec_iovec_slice` of the Guest Memory View
decodes a list of iovec descriptors (8 bytes each: `u32` offset, `u32`
length, little endian) from a guest array, validating the array range
and every decoded pair against guest memory. -/
def dec_iovec_slice (mem : List Nat) (ptr len : Nat) : Except Error (List Iovec) :=
  if ptr + 8 * len ≤ mem.length then decIovecsAux mem ptr len else .error .EFAULT

/-- Static size specification of a cipher (`CipherSpec` in
`cipherentry.rs`). -/
structure CipherSpec where
  key_size : Nat
  block_size : Nat
  nonce_size : Nat
  tag_size : Nat
deriving DecidableEq

/-- Sizes of AES-128-GCM as registered in `IMPLEMENTED_CIPHERS`. -/
def a128gcmSpec : CipherSpec := ⟨16, 16, 12, 16⟩

/-- A cipher session (`CipherEntry` in `cipherentry.rs`): the openssl
cipher (modelled by its size parameters), the guest location of the key
(offset and length — the key bytes themselves are not stored), and the
static size specification. -/
structure CipherEntry where
  cipher : CipherSpec
  key_ptr : Nat
  key_len : Nat
  spec : CipherSpec
deriving DecidableEq

/-- One registered cipher (`CipherImpl` in `crypto.rs`): its protocol
name (as the bytes of the UTF-8 string constant, here always ASCII) and
the cipher it constructs. -/
structure CipherImpl where
  name : List Nat
  cipher : CipherSpec
  spec : CipherSpec

/-- ASCII bytes of the string "A128GCM". -/
def asciiA128GCM : List Nat := [65, 49, 50, 56, 71, 67, 77]

/-- The statically registered cipher list from `crypto.rs`: only
"A128GCM", with key 16, block 16, nonce 12, tag 16. -/
def IMPLEMENTED_CIPHERS : List CipherImpl :=
  [⟨asciiA128GCM, a128gcmSpec, a128gcmSpec⟩]

/-- Modelled from the spec: the Crypto Session Registry of a `WasiCtx`
(the resource-table specialization mapping an AEAD handle to its bound
cipher session; the table implementation is not among the provided
sources). -/
structure WasiCtx where
  ciphers : List (Nat × CipherEntry)
deriving DecidableEq

/-- Modelled from the spec: registry lookup — returns the entry for a
handle or fails with the invalid-handle error. -/
def get_cipher_entry (ctx : WasiCtx) (h : Nat) : Except Error CipherEntry :=
  match ctx.ciphers.find? (fun p => p.1 == h) with
  | some p => .ok p.2
  | none => .error .EBADF

/-- Whether handle `h` is currently occupied in the registry. -/
def handleTaken (t : List (Nat × CipherEntry)) (h : Nat) : Bool :=
  t.any (fun p => p.1 == h)

/-- The lowest handle value not currently occupied (a free value always
exists among `0 .. t.length`). -/
def firstFree (t : List (Nat × CipherEntry)) : Nat :=
  match (List.range (t.length + 1)).find? (fun n => ! handleTaken t n) with
  | some n => n
  | none => t.length + 1

/-- Modelled from the spec: insertion of a cipher session at the lowest
free handle value (the Resource Table's `push`), failing with a
table-exhausted error if no representable (32-bit) handle remains. -/
def insert_cipher_entry (ctx : WasiCtx) (ce : CipherEntry) : Except Error (Nat × WasiCtx) :=
  let h := firstFree ctx.ciphers
  if h < 4294967296 then .ok (h, ⟨ctx.ciphers ++ [(h, ce)]⟩) else .error .EMFILE

/-- Modelled from the spec: `enc_aead_byref` writes the opened handle
(a 32-bit value, little endian) at the guest-supplied result pointer,
failing out-of-bounds like every Guest Memory View encode. -/
def enc_aead_byref (memory : List Nat) (ptr : Nat) (h : Nat) : Except Error (List Nat) :=
  enc_slice_of_u8 memory (le32Bytes h) ptr

/-- Modelled from the spec: one byte of the keystream that the AEAD
engine derives from its key and nonce for stream position `i` (the
underlying block-cipher primitive is out of scope; any fixed
deterministic derivation realizes the contract the spec states). -/
def ks (key nonce : List Nat) (i : Nat) : Nat :=
  (key.foldl (fun a b => (a * 131 + b + 7) % 1000000007) (nonce.foldl (fun a b => (a * 131 + b + 7) % 1000000007) 17) + i * 31 + i * i) % 256

/-- XOR of a byte string with the keystream starting at position `pos`. -/
def xorKs (key nonce : List Nat) : Nat → List Nat → List Nat
  | _, [] => []
  | pos, b :: bs => Nat.xor b (ks key nonce pos) :: xorKs key nonce (pos + 1) bs

/-- Accumulating hash used by the modelled authentication-tag function. -/
def absorb (acc : Nat) (l : List Nat) : Nat :=
  l.foldl (fun a b => (a * 131 + b + 7) % 1000000007) acc

/-- Modelled from the spec: the authentication tag of length `len` that
the AEAD engine computes over key, nonce, associated data and
ciphertext. -/
def tagFn (len : Nat) (key nonce aad ct : List Nat) : List Nat :=
  (List.range len).map (fun i => (absorb (absorb (absorb (absorb 17 key) nonce) aad) ct + i * i + 3) % 256)

/-- Modelled from the spec: the state of the openssl `Crypter` AEAD
engine — the cipher parameters, the bound key and nonce, the direction,
the stream position, and the associated data, ciphertext and expected
tag accumulated so far (ciphertext is the engine's output when
encrypting and its input when decrypting). -/
structure Crypter where
  cipher : CipherSpec
  key : List Nat
  nonce : List Nat
  encryptMode : Bool
  pos : Nat
  aadAcc : List Nat
  ctAcc : List Nat
  tagSet : Option (List Nat)

/-- Modelled from the spec: `Crypter::new` binds (algorithm, key, nonce)
into a fresh engine, failing on malformed parameter lengths (e.g. a
nonce whose length differs from the cipher's nonce size). -/
def Crypter.new (cipher : CipherSpec) (encryptMode : Bool) (key nonce : List Nat) : Except Error Crypter :=
  if key.length = cipher.key_size ∧ nonce.length = cipher.nonce_size then
    .ok ⟨cipher, key, nonce, encryptMode, 0, [], [], none⟩
  else .error .EINVAL

/-- Modelled from the spec: `Crypter::update` transforms one chunk in
stream order — the output is the input XORed with the keystream at the
current position, the position advances, and the ciphertext side of the
exchange is accumulated for the tag. -/
def Crypter.update (c : Crypter) (input : List Nat) : Crypter × List Nat :=
  let out := xorKs c.key c.nonce c.pos input
  ({ c with pos := c.pos + input.length,
            ctAcc := c.ctAcc ++ (if c.encryptMode then out else input) }, out)

/-- Modelled from the spec: `Crypter::aad_update` feeds
additional-authenticated-data bytes into the engine. -/
def Crypter.aad_update (c : Crypter) (aad : List Nat) : Crypter :=
  { c with aadAcc := c.aadAcc ++ aad }

/-- Modelled from the spec: `Crypter::set_tag` records the tag that the
decrypt finalize step must authenticate against. -/
def Crypter.set_tag (c : Crypter) (tag : List Nat) : Crypter :=
  { c with tagSet := some tag }

/-- Modelled from the spec: `Crypter::get_tag` extracts the
authentication tag after an encrypt finalize; the destination's declared
length must match the algorithm's tag size. -/
def Crypter.get_tag (c : Crypter) (len : Nat) : Except Error (List Nat) :=
  if len = c.cipher.tag_size then
    .ok (tagFn len c.key c.nonce c.aadAcc c.ctAcc)
  else .error .EINVAL

/-- Modelled from the spec: `Crypter::finalize` — trivial when
encrypting; when decrypting it authenticates the recorded tag against
the tag recomputed over the accumulated data and fails with
invalid-argument when they differ (or no tag was set). -/
def Crypter.finalize (c : Crypter) : Except Error Unit :=
  if c.encryptMode then .ok ()
  else
    match c.tagSet with
    | some t =>
      if t = tagFn c.cipher.tag_size c.key c.nonce c.aadAcc c.ctAcc then .ok ()
      else .error .EINVAL
    | none => .error .EINVAL

/-- The per-iovec chunk loop of `crypto_aead_encrypt`/`crypto_aead_decrypt`:
`data.chunks_mut(block_size)` processed in order through the engine,
each chunk overwritten with the engine's output.  (For `bs = 0` the Rust
`chunks_mut` panics; this model then consumes one byte per step.) -/
def processChunks (c : Crypter) (bs : Nat) : List Nat → Crypter × List Nat
  | [] => (c, [])
  | b :: rest =>
    let chunk := b :: rest.take (bs - 1)
    let step := c.update chunk
    let next := processChunks step.1 bs (rest.drop (bs - 1))
    (next.1, step.2 ++ next.2)
termination_by l => l.length
decreasing_by simp; omega

/-- The outer loop of the bulk transform: for each iovec in order, the
guest bytes of its region are run through the chunk loop and the region
is overwritten in place with the transformed bytes. -/
def transformIovs (c : Crypter) (bs : Nat) (mem : List Nat) : List Iovec → Crypter × List Nat
  | [] => (c, mem)
  | iov :: rest =>
    let data := readBytes mem iov.buf iov.buf_len
    let step := processChunks c bs data
    transformIovs step.1 bs (writeBytes mem iov.buf step.2) rest

/-- Embedding of `crypto_aead_open` from `crypto.rs`: decode and
UTF-8-check the algorithm name (two different byte strings never decode
to the same string, and the registered names are ASCII, so the
`x.name == algorithm` string comparison is byte equality), look it up in
`IMPLEMENTED_CIPHERS`, check the key length, build the `CipherEntry`
(retaining only the key's location), insert it into the registry, and
write the new handle to guest memory. -/
def crypto_aead_open (ctx : WasiCtx) (memory : List Nat)
    (algorithm_ptr algorithm_len key_ptr key_len opened_aead_ptr : Nat) :
    Except Error Unit × WasiCtx × List Nat :=
  match dec_slice_of_u8 memory algorithm_ptr algorithm_len with
  | .error e => (.error e, ctx, memory)
  | .ok algBytes =>
    if isValidUtf8 algBytes then
      match IMPLEMENTED_CIPHERS.find? (fun x => x.name == algBytes) with
      | none => (.error .ENOTSUP, ctx, memory)
      | some ci =>
        if key_len ≠ ci.spec.key_size then (.error .EINVAL, ctx, memory)
        else
          let ce : CipherEntry := ⟨ci.cipher, key_ptr, key_len, ci.spec⟩
          match insert_cipher_entry ctx ce with
          | .error e => (.error e, ctx, memory)
          | .ok hc =>
            match enc_aead_byref memory opened_aead_ptr hc.1 with
            | .error e => (.error e, hc.2, memory)
            | .ok memOut => (.ok (), hc.2, memOut)
    else (.error .EILSEQ, ctx, memory)

/-- The body of `crypto_aead_encrypt` after the key bytes have been
re-read from the session's recorded guest location. -/
def aead_encrypt_with_key (ce : CipherEntry) (key : List Nat) (memory : List Nat)
    (nonce_ptr nonce_len auth_ptr auth_len data_ptr data_len tag_ptr tag_len : Nat) :
    Except Error Unit × List Nat :=
  match dec_slice_of_u8 memory nonce_ptr nonce_len with
  | .error e => (.error e, memory)
  | .ok nonce =>
    match Crypter.new ce.cipher true key nonce with
    | .error _ => (.error .EINVAL, memory)
    | .ok enc0 =>
      match dec_slice_of_u8 memory auth_ptr auth_len with
      | .error e => (.error e, memory)
      | .ok auth =>
        let enc1 := enc0.aad_update auth
        match dec_iovec_slice memory data_ptr data_len with
        | .error e => (.error e, memory)
        | .ok iovs =>
          let res := transformIovs enc1 ce.spec.block_size memory iovs
          match res.1.finalize with
          | .error _ => (.error .EINVAL, res.2)
          | .ok _ =>
            match res.1.get_tag tag_len with
            | .error _ => (.error .EINVAL, res.2)
            | .ok tag_buf =>
              match enc_slice_of_u8 res.2 tag_buf tag_ptr with
              | .error e => (.error e, res.2)
              | .ok memOut => (.ok (), memOut)

/-- Embedding of `crypto_aead_encrypt` from `crypto.rs`: resolve the
session, re-read the key bytes from the session's recorded guest
location, then run the encrypt pipeline (nonce decode, engine
construction, AAD, in-place bulk transform over the iovecs, finalize,
tag extraction, tag write-back). -/
def crypto_aead_encrypt (ctx : WasiCtx) (memory : List Nat)
    (aead nonce_ptr nonce_len auth_ptr auth_len data_ptr data_len tag_ptr tag_len : Nat) :
    Except Error Unit × List Nat :=
  match get_cipher_entry ctx aead with
  | .error e => (.error e, memory)
  | .ok ce =>
    match dec_slice_of_u8 memory ce.key_ptr ce.key_len with
    | .error e => (.error e, memory)
    | .ok key =>
      aead_encrypt_with_key ce key memory nonce_ptr nonce_len auth_ptr auth_len data_ptr data_len tag_ptr tag_len

/-- The body of `crypto_aead_decrypt` after the key bytes have been
re-read from the session's recorded guest location. -/
def aead_decrypt_with_key (ce : CipherEntry) (key : List Nat) (memory : List Nat)
    (nonce_ptr nonce_len auth_ptr auth_len data_ptr data_len tag_ptr tag_len : Nat) :
    Except Error Unit × List Nat :=
  match dec_slice_of_u8 memory nonce_ptr nonce_len with
  | .error e => (.error e, memory)
  | .ok nonce =>
    match Crypter.new ce.cipher false key nonce with
    | .error _ => (.error .EINVAL, memory)
    | .ok dec0 =>
      match dec_slice_of_u8 memory auth_ptr auth_len with
      | .error e => (.error e, memory)
      | .ok auth =>
        let dec1 := dec0.aad_update auth
        match dec_slice_of_u8 memory tag_ptr tag_len with
        | .error e => (.error e, memory)
        | .ok tag =>
          let dec2 := dec1.set_tag tag
          match dec_iovec_slice memory data_ptr data_len with
          | .error e => (.error e, memory)
          | .ok iovs =>
            let res := transformIovs dec2 ce.spec.block_size memory iovs
            match res.1.finalize with
            | .error _ => (.error .EINVAL, res.2)
            | .ok _ => (.ok (), res.2)

/-- Embedding of `crypto_aead_decrypt` from `crypto.rs`: mirrors
encrypt, but the tag is read from guest memory and recorded for the
authenticating finalize step, which runs only after the bulk transform
has already overwritten the data iovecs in place. -/
def crypto_aead_decrypt (ctx : WasiCtx) (memory : List Nat)
    (aead nonce_ptr nonce_len auth_ptr auth_len data_ptr data_len tag_ptr tag_len : Nat) :
    Except Error Unit × List Nat :=
  match get_cipher_entry ctx aead with
  | .error e => (.error e, memory)
  | .ok ce =>
    match dec_slice_of_u8 memory ce.key_ptr ce.key_len with
    | .error e => (.error e, memory)
    | .ok key =>
      aead_decrypt_with_key ce key memory nonce_ptr nonce_len auth_ptr auth_len data_ptr data_len tag_ptr tag_len

/-- Embedding of `crypto_mac_open` from `crypto.rs`: a recognized but
unimplemented stub — it always fails with `ENOSYS` and touches nothing. -/
def crypto_mac_open (ctx : WasiCtx) (memory : List Nat)
    (algorithm_ptr algorithm_len key_ptr key_len opened_mac_ptr : Nat) :
    Except Error Unit × WasiCtx × List Nat :=
  (.error .ENOSYS, ctx, memory)

/-- Embedding of `crypto_mac_update` from `crypto.rs`: always `ENOSYS`. -/
def crypto_mac_update (ctx : WasiCtx) (memory : List Nat) (mac data_ptr data_len : Nat) :
    Except Error Unit × WasiCtx × List Nat :=
  (.error .ENOSYS, ctx, memory)

/-- Embedding of `crypto_mac_digest` from `crypto.rs`: always `ENOSYS`. -/
def crypto_mac_digest (ctx : WasiCtx) (memory : List Nat) (mac digest_ptr digest_len : Nat) :
    Except Error Unit × WasiCtx × List Nat :=
  (.error .ENOSYS, ctx, memory)

/-- Embedding of `crypto_mac_close` from `crypto.rs`: always `ENOSYS`. -/
def crypto_mac_close (ctx : WasiCtx) (memory : List Nat) (mac : Nat) :
    Except Error Unit × WasiCtx × List Nat :=
  (.error .ENOSYS, ctx, memory)

/-- Embedding of `crypto_hkdf` from `crypto.rs`: always `ENOSYS`. -/
def crypto_hkdf (ctx : WasiCtx) (memory : List Nat)
    (algorithm_ptr algorithm_len op input_ptr input_len output_ptr output_len : Nat) :
    Except Error Unit × WasiCtx × List Nat :=
  (.error .ENOSYS, ctx, memory)

/-- Total byte length described by a list of iovecs. -/
def sumLens : List Iovec → Nat
  | [] => 0
  | iov :: rest => iov.buf_len + sumLens rest

/-- The guest bytes currently held by each iovec region of `mem`. -/
def plainsOf (mem : List Nat) : List Iovec → List (List Nat)
  | [] => []
  | iov :: rest => readBytes mem iov.buf iov.buf_len :: plainsOf mem rest

/-- Keystream-XOR of a list of segments at consecutive stream positions. -/
def xorSegs (key nonce : List Nat) : Nat → List (List Nat) → List (List Nat)
  | _, [] => []
  | pos, s :: ss => xorKs key nonce pos s :: xorSegs key nonce (pos + s.length) ss

/-- Concatenation of a list of byte segments. -/
def catSegs : List (List Nat) → List Nat
  | [] => []
  | s :: ss => s ++ catSegs ss

/-- Memory after writing each segment to the corresponding iovec region. -/
def writeSegs (mem : List Nat) : List Iovec → List (List Nat) → List Nat
  | iov :: rest, s :: ss => writeSegs (writeBytes mem iov.buf s) rest ss
  | _, _ => mem

/-- Each segment's length equals the corresponding iovec's length. -/
def SegsFit : List Iovec → List (List Nat) → Prop
  | [], [] => True
  | iov :: rest, s :: ss => s.length = iov.buf_len ∧ SegsFit rest ss
  | _, _ => False

/-- The region of `iov` is disjoint from that of every iovec in `l`. -/
def DisjFromAll (iov : Iovec) (l : List Iovec) : Prop :=
  ∀ j ∈ l, Disj iov.buf iov.buf_len j.buf j.buf_len

instance (iov : Iovec) (l : List Iovec) : Decidable (DisjFromAll iov l) :=
  inferInstanceAs (Decidable (∀ j ∈ l, Disj iov.buf iov.buf_len j.buf j.buf_len))

/-- The regions of a list of iovecs are pairwise disjoint. -/
def PairwiseDisj : List Iovec → Prop
  | [] => True
  | iov :: rest => DisjFromAll iov rest ∧ PairwiseDisj rest

def decPairwiseDisj : (l : List Iovec) → Decidable (PairwiseDisj l)
  | [] => .isTrue trivial
  | iov :: rest =>
    have : Decidable (PairwiseDisj rest) := decPairwiseDisj rest
    inferInstanceAs (Decidable (And _ _))

instance (l : List Iovec) : Decidable (PairwiseDisj l) := decPairwiseDisj l

end WasiCrypto

namespace WasiC2

/-- Modelled from the spec: the error of `StringArray::push` — an
accumulated argument/environment entry is rejected when it is not UTF-8
or when it would push the array over its length limits. -/
inductive StringArrayError where
  | notUtf8
  | numberOfElements
  | cumulativeSize
deriving DecidableEq

/-- Modelled from the spec: the accumulated argument or environment
strings of a context (`StringArray` of `string_array.rs`, not among the
provided sources), stored as byte strings. -/
structure StringArray where
  elements : List (List Nat)
deriving DecidableEq

/-- An empty `StringArray`. -/
def StringArray.new : StringArray := ⟨[]⟩

/-- Cumulative byte size of the accumulated strings, one terminator each. -/
def StringArray.cumulative (sa : StringArray) : Nat :=
  (sa.elements.map (fun s => s.length + 1)).sum

/-- Modelled from the spec: `StringArray::push` rejects non-UTF-8 or
over-length entries with a string-array error and otherwise appends. -/
def StringArray.push (sa : StringArray) (s : List Nat) : Except StringArrayError StringArray :=
  if ¬ isValidUtf8 s then .error .notUtf8
  else if sa.elements.length + 1 > 4294967296 then .error .numberOfElements
  else if sa.cumulative + s.length + 1 > 4294967296 then .error .cumulativeSize
  else .ok ⟨sa.elements ++ [s]⟩

/-- The invariant of an accumulated string array: every entry is UTF-8
and the element count and cumulative size are within the 32-bit limits. -/
def StringArray.inv (sa : StringArray) : Prop :=
  (∀ s ∈ sa.elements, isValidUtf8 s = true) ∧
  sa.elements.length ≤ 4294967296 ∧ sa.cumulative ≤ 4294967296

instance (sa : StringArray) : Decidable (StringArray.inv sa) :=
  inferInstanceAs (Decidable (And _ _))

/-- File capability bits (`FileCaps` of `file.rs`; modelled from the
spec as a bitmask with distinct read and write bits). -/
def FileCaps.READ : Nat := 1

/-- The write capability bit. -/
def FileCaps.WRITE : Nat := 2

/-- All file capability bits. -/
def FileCaps.all : Nat := 3

/-- All directory capability bits (`DirCaps::all()`). -/
def DirCaps.all : Nat := 1

/-- A host object playing the role of a `Box<dyn WasiFile>`; the
platform standard streams are distinguished values. -/
inductive WFile where
  | stdinFile
  | stdoutFile
  | stderrFile
  | other (n : Nat)
deriving DecidableEq

/-- Modelled from the spec: a typed resource entry of the wasi-c2
`Table` — a file entry with its capability mask, or a directory entry
with directory and file capabilities and its resolved path. -/
inductive TableEntry where
  | file (caps : Nat) (f : WFile)
  | dir (caps : Nat) (fileCaps : Nat) (path : Option (List Nat)) (d : Nat)
deriving DecidableEq

/-- Modelled from the spec: the wasi-c2 `Table` (a capability table
mapping a numeric handle to a typed resource entry; `table.rs` is not
among the provided sources). -/
structure Table where
  entries : List (Nat × TableEntry)
deriving DecidableEq

/-- An empty table (`Table::new`). -/
def Table.new : Table := ⟨[]⟩

/-- Modelled from the spec: `Table::insert_at` installs or replaces the
entry at an exact handle value. -/
def Table.insert_at (t : Table) (h : Nat) (e : TableEntry) : Table :=
  ⟨(h, e) :: t.entries.filter (fun p => p.1 ≠ h)⟩

/-- Modelled from the spec: `Table::get` resolves a handle to its entry. -/
def Table.get (t : Table) (h : Nat) : Option TableEntry :=
  (t.entries.find? (fun p => p.1 == h)).map Prod.snd

/-- Whether handle `h` is occupied in the table. -/
def Table.taken (t : Table) (h : Nat) : Bool :=
  t.entries.any (fun p => p.1 == h)

/-- The lowest free handle value of the table. -/
def Table.firstFree (t : Table) : Nat :=
  match (List.range (t.entries.length + 1)).find? (fun n => ! t.taken n) with
  | some n => n
  | none => t.entries.length + 1

/-- Modelled from the spec: `Table::push` installs the entry at the
lowest free handle value, failing with a table-exhausted error if no
representable handle remains. -/
def Table.push (t : Table) (e : TableEntry) : Except Error (Nat × Table) :=
  let h := t.firstFree
  if h < 4294967296 then .ok (h, ⟨t.entries ++ [(h, e)]⟩) else .error .EMFILE

/-- The builder of a guest context (`WasiCtxBuilder` in `ctx.rs`):
accumulated args and env, the optional randomness override, and the
resource table under construction. -/
structure WasiCtxBuilder where
  args : StringArray
  env : StringArray
  random : Option Nat
  table : Table
deriving DecidableEq

/-- The per-guest-instance context (`WasiCtx` in `ctx.rs`; the clock
sources are out-of-scope platform adapters and are omitted; the
randomness source is the override or the OS default, here `0`). -/
structure WasiCtx where
  args : StringArray
  env : StringArray
  random : Nat
  table : Table
deriving DecidableEq

/-- Embedding of `WasiCtx::builder`: an empty builder. -/
def WasiCtx.builder : WasiCtxBuilder :=
  ⟨StringArray.new, StringArray.new, none, Table.new⟩

/-- Embedding of `WasiCtxBuilder::build` from `ctx.rs`: it packages the
accumulated state into a context and always returns `Ok` (the source
body is a single `Ok(WasiCtx(...))` with no failing operation). -/
def WasiCtxBuilder.build (b : WasiCtxBuilder) : Except Error WasiCtx :=
  .ok ⟨b.args, b.env, b.random.getD 0, b.table⟩

/-- Embedding of `WasiCtxBuilder::arg`: push the argument string (the
only fallible step, rejecting invariant-violating entries). -/
def WasiCtxBuilder.arg (b : WasiCtxBuilder) (s : List Nat) : Except StringArrayError WasiCtxBuilder :=
  match b.args.push s with
  | .ok a => .ok { b with args := a }
  | .error e => .error e

/-- Embedding of `WasiCtxBuilder::stdin`: install a file entry at the
reserved handle 0 with read-only base rights. -/
def WasiCtxBuilder.stdin (b : WasiCtxBuilder) (f : WFile) : WasiCtxBuilder :=
  { b with table := b.table.insert_at 0 (.file FileCaps.READ f) }

/-- Embedding of `WasiCtxBuilder::stdout`: install a file entry at the
reserved handle 1 with write-only base rights. -/
def WasiCtxBuilder.stdout (b : WasiCtxBuilder) (f : WFile) : WasiCtxBuilder :=
  { b with table := b.table.insert_at 1 (.file FileCaps.WRITE f) }

/-- Embedding of `WasiCtxBuilder::stderr`: install a file entry at the
reserved handle 2 with write-only base rights. -/
def WasiCtxBuilder.stderr (b : WasiCtxBuilder) (f : WFile) : WasiCtxBuilder :=
  { b with table := b.table.insert_at 2 (.file FileCaps.WRITE f) }

/-- Embedding of `WasiCtxBuilder::inherit_stdio`: install the three
platform standard streams, in stdin/stdout/stderr order. -/
def WasiCtxBuilder.inherit_stdio (b : WasiCtxBuilder) : WasiCtxBuilder :=
  ((b.stdin .stdinFile).stdout .stdoutFile).stderr .stderrFile

/-- Embedding of `WasiCtxBuilder::preopened_dir`: push a directory
entry carrying full directory and file rights and its guest path. -/
def WasiCtxBuilder.preopened_dir (b : WasiCtxBuilder) (d : Nat) (path : List Nat) :
    Except Error WasiCtxBuilder :=
  match b.table.push (.dir DirCaps.all FileCaps.all (some path) d) with
  | .ok ht => .ok { b with table := ht.2 }
  | .error e => .error e

/-- Embedding of `WasiCtxBuilder::random`: record the override. -/
def WasiCtxBuilder.randomOverride (b : WasiCtxBuilder) (r : Nat) : WasiCtxBuilder :=
  { b with random := some r }

/-- Builder states reachable through the builder API of `ctx.rs`,
starting from `WasiCtx::builder()`. -/
inductive Reachable : WasiCtxBuilder → Prop where
  | init : Reachable WasiCtx.builder
  | arg {b b' : WasiCtxBuilder} {s : List Nat} :
      Reachable b → b.arg s = .ok b' → Reachable b'
  | stdin {b : WasiCtxBuilder} {f : WFile} : Reachable b → Reachable (b.stdin f)
  | stdout {b : WasiCtxBuilder} {f : WFile} : Reachable b → Reachable (b.stdout f)
  | stderr {b : WasiCtxBuilder} {f : WFile} : Reachable b → Reachable (b.stderr f)
  | inherit_stdio {b : WasiCtxBuilder} : Reachable b → Reachable b.inherit_stdio
  | preopened_dir {b b' : WasiCtxBuilder} {d : Nat} {path : List Nat} :
      Reachable b → b.preopened_dir d path = .ok b' → Reachable b'
  | randomOverride {b : WasiCtxBuilder} {r : Nat} :
      Reachable b → Reachable (b.randomOverride r)

end WasiC2

namespace WasiCrypto

/-- Concrete guest memory for open-call evaluations: the ASCII name
"A128GCM" at offset 0 followed by a 16-byte all-zero key at offset 7. -/
def memOpen : List Nat := asciiA128GCM ++ List.replicate 16 0

/-- Concrete guest memory realizing the spec's round-trip scenario:
16-byte zero key at offset 0, 12-byte zero nonce at 16, 16-byte tag
slot at 28, two iovec descriptors at 44 (regions (60,5) and (65,12)),
and the 17 plaintext bytes of "hello wasi crypto" at 60. -/
def memRT : List Nat :=
  List.replicate 28 0 ++ List.replicate 16 0 ++
  [60, 0, 0, 0, 5, 0, 0, 0, 65, 0, 0, 0, 12, 0, 0, 0] ++
  [104, 101, 108, 108, 111, 32, 119, 97, 115, 105, 32, 99, 114, 121, 112, 116, 111]

/-- Registry holding one open A128GCM session whose key location is
offset 0, length 16. -/
def ctxRT : WasiCtx := ⟨[(0, ⟨a128gcmSpec, 0, 16, a128gcmSpec⟩)]⟩

end WasiCrypto

/-! ## Theorems -/

namespace WasiCrypto

theorem handleTaken_firstFree (t : List (Nat × CipherEntry)) :
    handleTaken t (firstFree t) = false := by
  unfold firstFree
  cases hf : (List.range (t.length + 1)).find? (fun n => ! handleTaken t n) with
  | some n =>
    have := List.find?_some hf
    simpa using this
  | none =>
    exfalso
    have hall := List.find?_eq_none.mp hf
    have htaken : ∀ n ∈ List.range (t.length + 1), handleTaken t n = true := by
      intro n hn
      have := hall n hn
      simpa using this
    have hsub : List.range (t.length + 1) ⊆ t.map Prod.fst := by
      intro n hn
      have h1 := htaken n hn
      unfold handleTaken at h1
      obtain ⟨p, hp, hpe⟩ := List.any_eq_true.mp h1
      have : p.1 = n := by simpa using hpe
      subst this
      exact List.mem_map_of_mem Prod.fst hp
    have hle : (List.range (t.length + 1)).length ≤ (t.map Prod.fst).length := by
      classical
      calc (List.range (t.length + 1)).length
          = (List.range (t.length + 1)).toFinset.card :=
            (List.toFinset_card_of_nodup (List.nodup_range _)).symm
        _ ≤ (t.map Prod.fst).toFinset.card := Finset.card_le_card (fun x hx => by
            simp only [List.mem_toFinset] at hx ⊢; exact hsub hx)
        _ ≤ (t.map Prod.fst).length := (t.map Prod.fst).toFinset_card_le
    simp at hle
end WasiCrypto

namespace WasiCrypto

/-- C8: every MAC operation (`mac_open`, `mac_update`, `mac_digest`,
`mac_close`) and `hkdf`, on every input, returns the not-implemented
error `ENOSYS` and leaves both the context and guest memory untouched;
and `ENOSYS` is distinct from `ENOTSUP` and `EINVAL`. -/
theorem mac_hkdf_not_implemented :
    (∀ (ctx : WasiCtx) (mem : List Nat) (a b c d e : Nat),
      crypto_mac_open ctx mem a b c d e = (.error .ENOSYS, ctx, mem)) ∧
    (∀ (ctx : WasiCtx) (mem : List Nat) (a b c : Nat),
      crypto_mac_update ctx mem a b c = (.error .ENOSYS, ctx, mem)) ∧
    (∀ (ctx : WasiCtx) (mem : List Nat) (a b c : Nat),
      crypto_mac_digest ctx mem a b c = (.error .ENOSYS, ctx, mem)) ∧
    (∀ (ctx : WasiCtx) (mem : List Nat) (a : Nat),
      crypto_mac_close ctx mem a = (.error .ENOSYS, ctx, mem)) ∧
    (∀ (ctx : WasiCtx) (mem : List Nat) (a b c d e f g : Nat),
      crypto_hkdf ctx mem a b c d e f g = (.error .ENOSYS, ctx, mem)) ∧
    Error.ENOSYS ≠ Error.ENOTSUP ∧ Error.ENOSYS ≠ Error.EINVAL :=
  ⟨fun _ _ _ _ _ _ _ => rfl, fun _ _ _ _ _ => rfl, fun _ _ _ _ _ => rfl,
   fun _ _ _ => rfl, fun _ _ _ _ _ _ _ _ _ => rfl, by decide, by decide⟩

/-- C2 (failing input): on a well-formed `aead_open` call whose result
pointer is out of guest bounds, the call fails (`EFAULT` from the
result-handle write) yet the freshly inserted session is left behind in
the registry — the registry state after the failing call differs from
the state before it, contradicting the spec's "an `aead_open` failure
must not leave a partially inserted session". -/
theorem aead_open_insert_survives_result_write_fault :
    crypto_aead_open ⟨[]⟩ memOpen 0 7 7 16 100 =
      (.error .EFAULT, ⟨[(0, ⟨a128gcmSpec, 7, 16, a128gcmSpec⟩)]⟩, memOpen) ∧
    (⟨[(0, ⟨a128gcmSpec, 7, 16, a128gcmSpec⟩)]⟩ : WasiCtx) ≠ ⟨[]⟩ :=
  ⟨rfl, by decide⟩

end WasiCrypto

namespace WasiC2

theorem find?_filter_ne (l : List (Nat × TableEntry)) (h k : Nat) (hk : k ≠ h) :
    (l.filter (fun p => p.1 ≠ h)).find? (fun p => p.1 == k) =
      l.find? (fun p => p.1 == k) := by
  induction l with
  | nil => rfl
  | cons p rest ih =>
    by_cases hph : p.1 = h
    · have hfilter : (p :: rest).filter (fun q => q.1 ≠ h) = rest.filter (fun q => q.1 ≠ h) := by
        simp [List.filter_cons, hph]
      have hpk : ¬ (p.1 == k) = true := by
        simp [hph]
        exact fun he => hk he.symm
      rw [hfilter, ih]
      exact (List.find?_cons_of_neg rest hpk).symm
    · have hfilter : (p :: rest).filter (fun q => q.1 ≠ h) = p :: rest.filter (fun q => q.1 ≠ h) := by
        simp [List.filter_cons, hph]
      rw [hfilter]
      by_cases hpk : p.1 = k
      · rw [List.find?_cons_of_pos _ (by simp [hpk]), List.find?_cons_of_pos _ (by simp [hpk])]
      · rw [List.find?_cons_of_neg _ (by simp [hpk]), List.find?_cons_of_neg _ (by simp [hpk]), ih]

theorem Table.get_insert_at_self (t : Table) (h : Nat) (e : TableEntry) :
    (t.insert_at h e).get h = some e := by
  simp [Table.get, Table.insert_at, List.find?]

theorem Table.get_insert_at_ne (t : Table) (h : Nat) (e : TableEntry) (k : Nat) (hk : k ≠ h) :
    (t.insert_at h e).get k = t.get k := by
  unfold Table.get Table.insert_at
  rw [List.find?_cons_of_neg _ (by simp; exact fun he => hk he.symm),
    find?_filter_ne _ _ _ hk]

/-- C10: the builder's `stdin`, `stdout` and `stderr` install file
entries at exactly the reserved handles 0, 1 and 2, with base rights
exactly `READ` for handle 0 and exactly `WRITE` for handles 1 and 2,
replacing whatever entry previously occupied that handle and touching
no other handle; `inherit_stdio` installs the three platform streams in
stdin/stdout/stderr order. -/
theorem builder_stdio_handles (b : WasiCtxBuilder) (f : WFile) :
    ((b.stdin f).table.get 0 = some (.file FileCaps.READ f) ∧
      ∀ k, k ≠ 0 → (b.stdin f).table.get k = b.table.get k) ∧
    ((b.stdout f).table.get 1 = some (.file FileCaps.WRITE f) ∧
      ∀ k, k ≠ 1 → (b.stdout f).table.get k = b.table.get k) ∧
    ((b.stderr f).table.get 2 = some (.file FileCaps.WRITE f) ∧
      ∀ k, k ≠ 2 → (b.stderr f).table.get k = b.table.get k) ∧
    b.inherit_stdio = ((b.stdin .stdinFile).stdout .stdoutFile).stderr .stderrFile ∧
    b.inherit_stdio.table.get 0 = some (.file FileCaps.READ .stdinFile) ∧
    b.inherit_stdio.table.get 1 = some (.file FileCaps.WRITE .stdoutFile) ∧
    b.inherit_stdio.table.get 2 = some (.file FileCaps.WRITE .stderrFile) := by
  refine ⟨⟨?_, ?_⟩, ⟨?_, ?_⟩, ⟨?_, ?_⟩, rfl, ?_, ?_, ?_⟩
  · exact Table.get_insert_at_self _ _ _
  · intro k hk; exact Table.get_insert_at_ne _ _ _ _ hk
  · exact Table.get_insert_at_self _ _ _
  · intro k hk; exact Table.get_insert_at_ne _ _ _ _ hk
  · exact Table.get_insert_at_self _ _ _
  · intro k hk; exact Table.get_insert_at_ne _ _ _ _ hk
  · show (((b.stdin .stdinFile).stdout .stdoutFile).stderr .stderrFile).table.get 0 = _
    rw [WasiCtxBuilder.stderr, Table.get_insert_at_ne _ _ _ _ (by decide)]
    show ((b.stdin .stdinFile).stdout .stdoutFile).table.get 0 = _
    rw [WasiCtxBuilder.stdout, Table.get_insert_at_ne _ _ _ _ (by decide)]
    exact Table.get_insert_at_self _ _ _
  · show (((b.stdin .stdinFile).stdout .stdoutFile).stderr .stderrFile).table.get 1 = _
    rw [WasiCtxBuilder.stderr, Table.get_insert_at_ne _ _ _ _ (by decide)]
    exact Table.get_insert_at_self _ _ _
  · exact Table.get_insert_at_self _ _ _

/-- C10 witness: the side conditions instantiated on the empty builder
and a concrete file. -/
theorem builder_stdio_handles_witness :
    (WasiCtx.builder.stdin (.other 7)).table.get 0 = some (.file FileCaps.READ (.other 7)) ∧
    (WasiCtx.builder.stdin (.other 7)).table.get 3 = WasiCtx.builder.table.get 3 :=
  ⟨(builder_stdio_handles WasiCtx.builder (.other 7)).1.1,
   (builder_stdio_handles WasiCtx.builder (.other 7)).1.2 3 (by decide)⟩

theorem StringArray.push_inv {sa sa' : StringArray} {s : List Nat}
    (h : sa.push s = .ok sa') (hi : sa.inv) : sa'.inv := by
  unfold StringArray.push at h
  by_cases h1 : isValidUtf8 s = true
  · simp [h1] at h
    by_cases h2 : sa.elements.length + 1 > 4294967296
    · simp [h2] at h
    · simp [h2] at h
      by_cases h3 : sa.cumulative + s.length + 1 > 4294967296
      · simp [h3] at h
      · simp [h3] at h
        subst h
        obtain ⟨hall, hlen, hcum⟩ := hi
        refine ⟨?_, ?_, ?_⟩
        · intro x hx
          simp at hx
          cases hx with
          | inl hx => exact hall x hx
          | inr hx => subst hx; exact h1
        · simp; omega
        · simp [StringArray.cumulative] at hcum ⊢
          simp [StringArray.cumulative] at h3
          omega
  · simp [h1] at h

theorem Reachable.inv {b : WasiCtxBuilder} (h : Reachable b) :
    b.args.inv ∧ b.env.inv := by
  induction h with
  | init =>
    constructor <;> exact ⟨by simp [WasiCtx.builder, StringArray.new],
      by simp [WasiCtx.builder, StringArray.new], by simp [WasiCtx.builder, StringArray.new, StringArray.cumulative]⟩
  | arg hr hok ih =>
    rename_i b b' s
    unfold WasiCtxBuilder.arg at hok
    cases hp : b.args.push s with
    | ok a =>
      rw [hp] at hok
      simp at hok
      subst hok
      exact ⟨StringArray.push_inv hp ih.1, ih.2⟩
    | error e => rw [hp] at hok; exact absurd hok (by simp)
  | stdin hr ih => exact ih
  | stdout hr ih => exact ih
  | stderr hr ih => exact ih
  | inherit_stdio hr ih => exact ih
  | preopened_dir hr hok ih =>
    rename_i b b' d path
    unfold WasiCtxBuilder.preopened_dir at hok
    cases hp : b.table.push (.dir DirCaps.all FileCaps.all (some path) d) with
    | ok ht =>
      rw [hp] at hok
      simp at hok
      subst hok
      exact ih
    | error e => rw [hp] at hok; exact absurd hok (by simp)
  | randomOverride hr ih => exact ih

/-- C9: `build` is infallible in the source — it always returns the
packaged context — so it in particular succeeds on every builder state
whose args/env satisfy their invariants; and along the builder API every
reachable state does satisfy them (`arg` rejects non-UTF-8 or
over-length entries before they are accumulated), so on reachable
states "build fails" and "the accumulated args/env violate their
invariants" are both false, making them trivially equivalent. -/
theorem builder_build_infallible :
    (∀ b : WasiCtxBuilder, b.build = .ok ⟨b.args, b.env, b.random.getD 0, b.table⟩) ∧
    (∀ b : WasiCtxBuilder, Reachable b → b.args.inv ∧ b.env.inv) ∧
    (∀ b : WasiCtxBuilder, Reachable b →
      ((∃ e, b.build = .error e) ↔ ¬ (b.args.inv ∧ b.env.inv))) := by
  refine ⟨fun b => rfl, fun b h => h.inv, fun b h => ?_⟩
  constructor
  · rintro ⟨e, he⟩
    exact absurd he (by simp [WasiCtxBuilder.build])
  · intro hn
    exact absurd h.inv hn

/-- C9 witness: the empty builder is reachable, its accumulated strings
satisfy the invariants, and `build` on it succeeds. -/
theorem builder_build_infallible_witness :
    WasiCtx.builder.build =
      .ok ⟨WasiCtx.builder.args, WasiCtx.builder.env, WasiCtx.builder.random.getD 0, WasiCtx.builder.table⟩ ∧
    (WasiCtx.builder.args.inv ∧ WasiCtx.builder.env.inv) :=
  ⟨builder_build_infallible.1 WasiCtx.builder,
   builder_build_infallible.2.1 WasiCtx.builder Reachable.init⟩

end WasiC2

namespace WasiCrypto

/-- C3: `aead_open` validates in a fixed order with exactly these error
codes — non-UTF-8 algorithm bytes fail `EILSEQ`; valid UTF-8 whose
bytes are not the one registered name "A128GCM" fails `ENOTSUP`; the
right name with a key length other than the declared key size 16 fails
`EINVAL`; otherwise (given a free table slot and an in-bounds result
pointer, the two residual resource conditions) a session is allocated
at a handle not previously occupied and returned through guest memory. -/
theorem aead_open_validation_order
    (ctx : WasiCtx) (mem : List Nat)
    (algorithm_ptr algorithm_len key_ptr key_len opened_aead_ptr : Nat)
    (algBytes : List Nat)
    (halg : dec_slice_of_u8 mem algorithm_ptr algorithm_len = .ok algBytes) :
    (isValidUtf8 algBytes = false →
      crypto_aead_open ctx mem algorithm_ptr algorithm_len key_ptr key_len opened_aead_ptr =
        (.error .EILSEQ, ctx, mem)) ∧
    (isValidUtf8 algBytes = true → algBytes ≠ asciiA128GCM →
      crypto_aead_open ctx mem algorithm_ptr algorithm_len key_ptr key_len opened_aead_ptr =
        (.error .ENOTSUP, ctx, mem)) ∧
    (algBytes = asciiA128GCM → key_len ≠ 16 →
      crypto_aead_open ctx mem algorithm_ptr algorithm_len key_ptr key_len opened_aead_ptr =
        (.error .EINVAL, ctx, mem)) ∧
    (algBytes = asciiA128GCM → key_len = 16 →
      firstFree ctx.ciphers < 4294967296 → opened_aead_ptr + 4 ≤ mem.length →
      crypto_aead_open ctx mem algorithm_ptr algorithm_len key_ptr key_len opened_aead_ptr =
        (.ok (),
         ⟨ctx.ciphers ++ [(firstFree ctx.ciphers, ⟨a128gcmSpec, key_ptr, 16, a128gcmSpec⟩)]⟩,
         writeBytes mem opened_aead_ptr (le32Bytes (firstFree ctx.ciphers))) ∧
      handleTaken ctx.ciphers (firstFree ctx.ciphers) = false) := by
  refine ⟨?_, ?_, ?_, ?_⟩
  · intro hval
    simp [crypto_aead_open, halg, hval]
  · intro hval hne
    have hbeq : (asciiA128GCM == algBytes) = false :=
      beq_eq_false_iff_ne.mpr (fun he => hne he.symm)
    simp [crypto_aead_open, halg, hval, IMPLEMENTED_CIPHERS, List.find?, hbeq]
  · intro heq hkey
    subst heq
    simp [crypto_aead_open, halg, IMPLEMENTED_CIPHERS, List.find?, a128gcmSpec, hkey]
    decide
  · intro heq hkey hfree hbound
    subst heq
    subst hkey
    constructor
    · simp [crypto_aead_open, halg, IMPLEMENTED_CIPHERS, List.find?, a128gcmSpec,
        insert_cipher_entry, hfree, enc_aead_byref, enc_slice_of_u8, le32Bytes, hbound]
      decide
    · exact handleTaken_firstFree ctx.ciphers

/-- C3 witness: the branches instantiated on a concrete open call
(registry empty, "A128GCM" at offset 0, 16-byte key at offset 7,
result pointer 19). -/
theorem aead_open_validation_order_witness :
    ((asciiA128GCM : List Nat) = asciiA128GCM → (16 : Nat) = 16 →
      firstFree (WasiCtx.mk []).ciphers < 4294967296 → 19 + 4 ≤ memOpen.length →
      crypto_aead_open ⟨[]⟩ memOpen 0 7 7 16 19 =
        (.ok (),
         ⟨(WasiCtx.mk []).ciphers ++ [(firstFree (WasiCtx.mk []).ciphers, ⟨a128gcmSpec, 7, 16, a128gcmSpec⟩)]⟩,
         writeBytes memOpen 19 (le32Bytes (firstFree (WasiCtx.mk []).ciphers))) ∧
      handleTaken (WasiCtx.mk []).ciphers (firstFree (WasiCtx.mk []).ciphers) = false) ∧
    crypto_aead_open ⟨[]⟩ memOpen 0 7 7 16 19 =
      (.ok (), ⟨[(0, ⟨a128gcmSpec, 7, 16, a128gcmSpec⟩)]⟩, writeBytes memOpen 19 (le32Bytes 0)) := by
  have h := aead_open_validation_order ⟨[]⟩ memOpen 0 7 7 16 19 asciiA128GCM rfl
  refine ⟨h.2.2.2, ?_⟩
  have h4 := h.2.2.2 rfl rfl (by decide) (by decide)
  exact h4.1

end WasiCrypto

namespace WasiCrypto

theorem readBytes_getElem? (m : List Nat) (q n j : Nat) :
    (readBytes m q n)[j]? = if j < n then m[q + j]? else none := by
  unfold readBytes
  by_cases h : j < n
  · simp [List.getElem?_take, h, List.getElem?_drop]
  · simp [List.getElem?_take, h]

theorem readBytes_length (m : List Nat) (q n : Nat) (h : q + n ≤ m.length) :
    (readBytes m q n).length = n := by
  unfold readBytes
  simp
  omega

theorem readBytes_congr {m1 m2 : List Nat} (q n : Nat)
    (h : ∀ i, q ≤ i → i < q + n → m1[i]? = m2[i]?) :
    readBytes m1 q n = readBytes m2 q n := by
  apply List.ext_getElem?
  intro j
  rw [readBytes_getElem?, readBytes_getElem?]
  by_cases hj : j < n
  · rw [if_pos hj, if_pos hj]
    exact h (q + j) (Nat.le_add_right _ _) (by omega)
  · rw [if_neg hj, if_neg hj]

theorem readBytes_agree {m1 m2 : List Nat} {q n : Nat}
    (h : readBytes m1 q n = readBytes m2 q n) :
    ∀ i, q ≤ i → i < q + n → m1[i]? = m2[i]? := by
  intro i hqi hin
  have hj := congrArg (fun l => l[i - q]?) h
  simp only at hj
  rw [readBytes_getElem?, readBytes_getElem?] at hj
  have hlt : i - q < n := by omega
  rw [if_pos hlt, if_pos hlt] at hj
  have hidx : q + (i - q) = i := by omega
  rwa [hidx] at hj

theorem writeBytes_getElem? (m d : List Nat) (p : Nat) (hb : p + d.length ≤ m.length) (i : Nat) :
    (writeBytes m p d)[i]? = if p ≤ i ∧ i < p + d.length then d[i - p]? else m[i]? := by
  unfold writeBytes
  have hlt : (m.take p).length = p := by simp; omega
  rw [List.append_assoc, List.getElem?_append, hlt]
  by_cases h1 : i < p
  · rw [if_pos h1, if_neg (by omega)]
    simp [List.getElem?_take, h1]
  · rw [if_neg h1, List.getElem?_append]
    by_cases h2 : i < p + d.length
    · have hd : i - p < d.length := by omega
      rw [if_pos hd, if_pos ⟨by omega, h2⟩]
    · have hd : ¬ i - p < d.length := by omega
      rw [if_neg hd, if_neg (by omega), List.getElem?_drop]
      have hidx : p + d.length + (i - p - d.length) = i := by omega
      rw [hidx]

theorem writeBytes_length (m d : List Nat) (p : Nat) (hb : p + d.length ≤ m.length) :
    (writeBytes m p d).length = m.length := by
  unfold writeBytes
  simp
  omega

theorem readBytes_writeBytes (m d : List Nat) (p : Nat) (hb : p + d.length ≤ m.length) :
    readBytes (writeBytes m p d) p d.length = d := by
  apply List.ext_getElem?
  intro j
  rw [readBytes_getElem?]
  by_cases hj : j < d.length
  · rw [if_pos hj, writeBytes_getElem? m d p hb, if_pos ⟨Nat.le_add_right _ _, by omega⟩]
    congr 1
    omega
  · rw [if_neg hj]
    exact (List.getElem?_eq_none (by omega)).symm

theorem writeBytes_outside (m d : List Nat) (p : Nat) (hb : p + d.length ≤ m.length)
    (i : Nat) (h : i < p ∨ p + d.length ≤ i) :
    (writeBytes m p d)[i]? = m[i]? := by
  rw [writeBytes_getElem? m d p hb, if_neg (by omega)]

theorem xorKs_length (key nonce : List Nat) (p : Nat) (l : List Nat) :
    (xorKs key nonce p l).length = l.length := by
  induction l generalizing p with
  | nil => rfl
  | cons b bs ih => simp [xorKs, ih]

theorem xorKs_append (key nonce : List Nat) (p : Nat) (l₁ l₂ : List Nat) :
    xorKs key nonce p (l₁ ++ l₂) =
      xorKs key nonce p l₁ ++ xorKs key nonce (p + l₁.length) l₂ := by
  induction l₁ generalizing p with
  | nil => simp [xorKs]
  | cons b bs ih =>
    show xorKs key nonce p (b :: (bs ++ l₂)) = _
    rw [xorKs, xorKs, ih]
    simp
    have hidx : p + 1 + bs.length = p + (bs.length + 1) := by omega
    rw [hidx]

theorem xorKs_xorKs (key nonce : List Nat) (p : Nat) (l : List Nat) :
    xorKs key nonce p (xorKs key nonce p l) = l := by
  induction l generalizing p with
  | nil => rfl
  | cons b bs ih =>
    rw [xorKs, xorKs, ih]
    congr 1
    exact Nat.xor_cancel_right _ _

end WasiCrypto

namespace WasiCrypto

theorem processChunks_eq (bs : Nat) : ∀ (n : Nat) (data : List Nat), data.length ≤ n →
    ∀ c : Crypter,
    processChunks c bs data =
      ({ c with pos := c.pos + data.length,
                ctAcc := c.ctAcc ++ (if c.encryptMode then xorKs c.key c.nonce c.pos data else data) },
       xorKs c.key c.nonce c.pos data) := by
  intro n
  induction n with
  | zero =>
    intro data h c
    have hd : data = [] := List.eq_nil_of_length_eq_zero (by omega)
    subst hd
    simp [processChunks, xorKs]
  | succ n ih =>
    intro data h c
    match data with
    | [] => simp [processChunks, xorKs]
    | b :: rest =>
      have hlen : (rest.drop (bs - 1)).length ≤ n := by
        simp at h ⊢
        omega
      have hchunk : (b :: rest.take (bs - 1)) ++ rest.drop (bs - 1) = b :: rest := by
        simp [List.take_append_drop]
      have hsplit : xorKs c.key c.nonce c.pos (b :: rest) =
          xorKs c.key c.nonce c.pos (b :: rest.take (bs - 1)) ++
            xorKs c.key c.nonce (c.pos + (b :: rest.take (bs - 1)).length) (rest.drop (bs - 1)) := by
        rw [← xorKs_append, hchunk]
      simp only [processChunks]
      rw [ih _ hlen]
      obtain ⟨cip, key, nonce, em, pos, aad, ct, tg⟩ := c
      simp only [Crypter.update] at *
      cases em <;>
        simp [hsplit, List.append_assoc, List.length_take] <;>
        omega

theorem processChunks_spec (bs : Nat) (data : List Nat) (c : Crypter) :
    processChunks c bs data =
      ({ c with pos := c.pos + data.length,
                ctAcc := c.ctAcc ++ (if c.encryptMode then xorKs c.key c.nonce c.pos data else data) },
       xorKs c.key c.nonce c.pos data) :=
  processChunks_eq bs data.length data (Nat.le_refl _) c

theorem plainsOf_congr {m1 m2 : List Nat} : ∀ (iovs : List Iovec),
    (∀ j ∈ iovs, readBytes m1 j.buf j.buf_len = readBytes m2 j.buf j.buf_len) →
    plainsOf m1 iovs = plainsOf m2 iovs := by
  intro iovs
  induction iovs with
  | nil => intro h; rfl
  | cons iov rest ih =>
    intro h
    rw [plainsOf, plainsOf, h iov (by simp), ih (fun j hj => h j (by simp [hj]))]

theorem transformIovs_spec (bs : Nat) : ∀ (iovs : List Iovec) (c : Crypter) (mem : List Nat),
    (∀ iov ∈ iovs, iov.buf + iov.buf_len ≤ mem.length) →
    PairwiseDisj iovs →
    transformIovs c bs mem iovs =
      ({ c with pos := c.pos + sumLens iovs,
                ctAcc := c.ctAcc ++
                  (if c.encryptMode then catSegs (xorSegs c.key c.nonce c.pos (plainsOf mem iovs))
                   else catSegs (plainsOf mem iovs)) },
       writeSegs mem iovs (xorSegs c.key c.nonce c.pos (plainsOf mem iovs))) := by
  intro iovs
  induction iovs with
  | nil =>
    intro c mem hb hp
    simp [transformIovs, sumLens, plainsOf, xorSegs, catSegs, writeSegs]
  | cons iov rest ih =>
    intro c mem hb hp
    have hbhead : iov.buf + iov.buf_len ≤ mem.length := hb iov (by simp)
    have hdlen : (readBytes mem iov.buf iov.buf_len).length = iov.buf_len :=
      readBytes_length _ _ _ hbhead
    have houtlen :
        (xorKs c.key c.nonce c.pos (readBytes mem iov.buf iov.buf_len)).length = iov.buf_len := by
      rw [xorKs_length, hdlen]
    have hwb : iov.buf + (xorKs c.key c.nonce c.pos (readBytes mem iov.buf iov.buf_len)).length ≤ mem.length := by
      rw [houtlen]; exact hbhead
    have hmem1len :
        (writeBytes mem iov.buf (xorKs c.key c.nonce c.pos (readBytes mem iov.buf iov.buf_len))).length
          = mem.length := writeBytes_length _ _ _ hwb
    have hbrest : ∀ j ∈ rest,
        j.buf + j.buf_len ≤
          (writeBytes mem iov.buf (xorKs c.key c.nonce c.pos (readBytes mem iov.buf iov.buf_len))).length := by
      intro j hj
      rw [hmem1len]
      exact hb j (by simp [hj])
    have hplains :
        plainsOf (writeBytes mem iov.buf (xorKs c.key c.nonce c.pos (readBytes mem iov.buf iov.buf_len))) rest
          = plainsOf mem rest := by
      apply plainsOf_congr
      intro j hj
      apply readBytes_congr
      intro i hi1 hi2
      apply writeBytes_outside _ _ _ hwb
      have hd := hp.1 j hj
      rw [houtlen]
      cases hd with
      | inl hd => right; omega
      | inr hd => left; omega
    simp only [transformIovs]
    rw [processChunks_spec]
    rw [ih _ _ hbrest hp.2]
    rw [hplains]
    obtain ⟨cip, key, nonce, em, pos, aad, ct, tg⟩ := c
    simp only at *
    cases em <;>
      simp [sumLens, plainsOf, xorSegs, catSegs, writeSegs, List.append_assoc, hdlen] <;>
      omega

theorem Disj.symm {a al b bl : Nat} (h : Disj a al b bl) : Disj b bl a al :=
  h.elim Or.inr Or.inl

theorem segsFit_xorSegs_plains (key nonce : List Nat) :
    ∀ (iovs : List Iovec) (p : Nat) (mem : List Nat),
    (∀ iov ∈ iovs, iov.buf + iov.buf_len ≤ mem.length) →
    SegsFit iovs (xorSegs key nonce p (plainsOf mem iovs)) := by
  intro iovs
  induction iovs with
  | nil => intro p mem hb; trivial
  | cons iov rest ih =>
    intro p mem hb
    refine ⟨?_, ?_⟩
    · rw [xorKs_length]
      exact readBytes_length _ _ _ (hb iov (by simp))
    · exact ih _ mem (fun j hj => hb j (by simp [hj]))

theorem writeSegs_length : ∀ (iovs : List Iovec) (segs : List (List Nat)) (mem : List Nat),
    SegsFit iovs segs →
    (∀ iov ∈ iovs, iov.buf + iov.buf_len ≤ mem.length) →
    (writeSegs mem iovs segs).length = mem.length := by
  intro iovs
  induction iovs with
  | nil => intro segs mem hf hb; cases segs <;> rfl
  | cons iov rest ih =>
    intro segs mem hf hb
    cases segs with
    | nil => exact absurd hf (by simp [SegsFit])
    | cons s ss =>
      obtain ⟨hs, hss⟩ := hf
      have hwb : iov.buf + s.length ≤ mem.length := by
        rw [hs]; exact hb iov (by simp)
      rw [writeSegs, ih ss _ hss (fun j hj => by
        rw [writeBytes_length _ _ _ hwb]; exact hb j (by simp [hj]))]
      exact writeBytes_length _ _ _ hwb

theorem writeSegs_outside : ∀ (iovs : List Iovec) (segs : List (List Nat)) (mem : List Nat) (i : Nat),
    SegsFit iovs segs →
    (∀ iov ∈ iovs, iov.buf + iov.buf_len ≤ mem.length) →
    (∀ iov ∈ iovs, i < iov.buf ∨ iov.buf + iov.buf_len ≤ i) →
    (writeSegs mem iovs segs)[i]? = mem[i]? := by
  intro iovs
  induction iovs with
  | nil => intro segs mem i hf hb ho; cases segs <;> rfl
  | cons iov rest ih =>
    intro segs mem i hf hb ho
    cases segs with
    | nil => exact absurd hf (by simp [SegsFit])
    | cons s ss =>
      obtain ⟨hs, hss⟩ := hf
      have hwb : iov.buf + s.length ≤ mem.length := by
        rw [hs]; exact hb iov (by simp)
      rw [writeSegs, ih ss _ i hss (fun j hj => by
        rw [writeBytes_length _ _ _ hwb]; exact hb j (by simp [hj]))
        (fun j hj => ho j (by simp [hj]))]
      apply writeBytes_outside _ _ _ hwb
      have := ho iov (by simp)
      rw [hs]
      exact this

theorem writeSegs_frame (iovs : List Iovec) (segs : List (List Nat)) (mem : List Nat)
    (q n : Nat) (hf : SegsFit iovs segs)
    (hb : ∀ iov ∈ iovs, iov.buf + iov.buf_len ≤ mem.length)
    (hd : ∀ iov ∈ iovs, Disj q n iov.buf iov.buf_len) :
    readBytes (writeSegs mem iovs segs) q n = readBytes mem q n := by
  apply readBytes_congr
  intro i hi1 hi2
  apply writeSegs_outside iovs segs mem i hf hb
  intro j hj
  cases hd j hj with
  | inl h => left; omega
  | inr h => right; omega

theorem plainsOf_writeSegs : ∀ (iovs : List Iovec) (segs : List (List Nat)) (mem : List Nat),
    SegsFit iovs segs →
    (∀ iov ∈ iovs, iov.buf + iov.buf_len ≤ mem.length) →
    PairwiseDisj iovs →
    plainsOf (writeSegs mem iovs segs) iovs = segs := by
  intro iovs
  induction iovs with
  | nil => intro segs mem hf hb hp; cases segs with
    | nil => rfl
    | cons s ss => exact absurd hf (by simp [SegsFit])
  | cons iov rest ih =>
    intro segs mem hf hb hp
    cases segs with
    | nil => exact absurd hf (by simp [SegsFit])
    | cons s ss =>
      obtain ⟨hs, hss⟩ := hf
      have hwb : iov.buf + s.length ≤ mem.length := by
        rw [hs]; exact hb iov (by simp)
      have hbrest : ∀ j ∈ rest, j.buf + j.buf_len ≤ (writeBytes mem iov.buf s).length := by
        intro j hj
        rw [writeBytes_length _ _ _ hwb]
        exact hb j (by simp [hj])
      rw [writeSegs, plainsOf]
      have hhead : readBytes (writeSegs (writeBytes mem iov.buf s) rest ss) iov.buf iov.buf_len = s := by
        rw [writeSegs_frame rest ss _ iov.buf iov.buf_len hss hbrest
          (fun j hj => hp.1 j hj)]
        rw [← hs, readBytes_writeBytes _ _ _ hwb]
      rw [hhead, ih ss _ hss hbrest hp.2]

theorem xorSegs_xorSegs (key nonce : List Nat) : ∀ (ss : List (List Nat)) (p : Nat),
    xorSegs key nonce p (xorSegs key nonce p ss) = ss := by
  intro ss
  induction ss with
  | nil => intro p; rfl
  | cons s rest ih =>
    intro p
    rw [xorSegs, xorSegs, xorKs_xorKs, xorKs_length, ih]

theorem decIovecsAux_ok_bounds (mem : List Nat) : ∀ (n ptr : Nat) (iovs : List Iovec),
    decIovecsAux mem ptr n = .ok iovs →
    ∀ iov ∈ iovs, iov.buf + iov.buf_len ≤ mem.length := by
  intro n
  induction n with
  | zero =>
    intro ptr iovs h iov hm
    simp [decIovecsAux] at h
    subst h
    simp at hm
  | succ n ih =>
    intro ptr iovs h iov hm
    simp only [decIovecsAux] at h
    by_cases hb : readLe32 mem ptr + readLe32 mem (ptr + 4) ≤ mem.length
    · rw [if_pos hb] at h
      cases haux : decIovecsAux mem (ptr + 8) n with
      | ok rest =>
        rw [haux] at h
        simp at h
        subst h
        simp at hm
        cases hm with
        | inl hm => subst hm; exact hb
        | inr hm => exact ih (ptr + 8) rest haux iov hm
      | error e => rw [haux] at h; simp at h
    · rw [if_neg hb] at h
      simp at h

theorem dec_iovec_slice_ok_bounds {mem : List Nat} {ptr len : Nat} {iovs : List Iovec}
    (h : dec_iovec_slice mem ptr len = .ok iovs) :
    ∀ iov ∈ iovs, iov.buf + iov.buf_len ≤ mem.length := by
  unfold dec_iovec_slice at h
  split at h
  · exact decIovecsAux_ok_bounds mem len ptr iovs h
  · simp at h

theorem readLe32_congr {m1 m2 : List Nat} {p : Nat}
    (h : readBytes m2 p 4 = readBytes m1 p 4) : readLe32 m2 p = readLe32 m1 p := by
  unfold readLe32
  rw [h]

theorem decIovecsAux_congr {m1 m2 : List Nat} (hlen : m2.length = m1.length) :
    ∀ (n ptr : Nat),
    (∀ i, ptr ≤ i → i < ptr + 8 * n → m2[i]? = m1[i]?) →
    decIovecsAux m2 ptr n = decIovecsAux m1 ptr n := by
  intro n
  induction n with
  | zero => intro ptr h; rfl
  | succ n ih =>
    intro ptr h
    have h1 : readLe32 m2 ptr = readLe32 m1 ptr :=
      readLe32_congr (readBytes_congr _ _ (fun i hi1 hi2 => h i hi1 (by omega)))
    have h2 : readLe32 m2 (ptr + 4) = readLe32 m1 (ptr + 4) :=
      readLe32_congr (readBytes_congr _ _ (fun i hi1 hi2 => h i (by omega) (by omega)))
    have h3 := ih (ptr + 8) (fun i hi1 hi2 => h i (by omega) (by omega))
    simp only [decIovecsAux]
    rw [h1, h2, hlen, h3]

theorem dec_iovec_slice_congr {m1 m2 : List Nat} {ptr len : Nat} (hlen : m2.length = m1.length)
    (h : ∀ i, ptr ≤ i → i < ptr + 8 * len → m2[i]? = m1[i]?) :
    dec_iovec_slice m2 ptr len = dec_iovec_slice m1 ptr len := by
  unfold dec_iovec_slice
  rw [hlen, decIovecsAux_congr hlen len ptr h]

theorem transformIovs_fields (bs : Nat) : ∀ (iovs : List Iovec) (c : Crypter) (mem : List Nat),
    (transformIovs c bs mem iovs).1.cipher = c.cipher ∧
    (transformIovs c bs mem iovs).1.key = c.key ∧
    (transformIovs c bs mem iovs).1.nonce = c.nonce ∧
    (transformIovs c bs mem iovs).1.encryptMode = c.encryptMode ∧
    (transformIovs c bs mem iovs).1.aadAcc = c.aadAcc ∧
    (transformIovs c bs mem iovs).1.tagSet = c.tagSet := by
  intro iovs
  induction iovs with
  | nil => intro c mem; exact ⟨rfl, rfl, rfl, rfl, rfl, rfl⟩
  | cons iov rest ih =>
    intro c mem
    simp only [transformIovs]
    rw [processChunks_spec]
    exact ih _ _

theorem Crypter.new_ok {cipher : CipherSpec} {em : Bool} {key nonce : List Nat} {c : Crypter}
    (h : Crypter.new cipher em key nonce = .ok c) :
    c = ⟨cipher, key, nonce, em, 0, [], [], none⟩ ∧
    key.length = cipher.key_size ∧ nonce.length = cipher.nonce_size := by
  unfold Crypter.new at h
  split at h
  · rename_i hcond
    simp at h
    exact ⟨h.symm, hcond.1, hcond.2⟩
  · simp at h

theorem Crypter.finalize_cases (c : Crypter) :
    c.finalize = .ok () ∨ c.finalize = .error .EINVAL := by
  unfold Crypter.finalize
  split
  · left; rfl
  · split
    · split
      · left; rfl
      · right; rfl
    · right; rfl

theorem aead_encrypt_ok_elim (ctx : WasiCtx) (mem : List Nat)
    (aead np nl ap al dp dl tp tl : Nat)
    (h : (crypto_aead_encrypt ctx mem aead np nl ap al dp dl tp tl).1 = .ok ()) :
    ∃ ce iovs, get_cipher_entry ctx aead = .ok ce ∧
      dec_iovec_slice mem dp dl = .ok iovs ∧ tl = ce.cipher.tag_size := by
  unfold crypto_aead_encrypt at h
  cases hget : get_cipher_entry ctx aead with
  | error e => simp [hget] at h
  | ok ce =>
  simp only [hget] at h
  cases hkey : dec_slice_of_u8 mem ce.key_ptr ce.key_len with
  | error e => simp [hkey] at h
  | ok key =>
  simp only [hkey] at h
  unfold aead_encrypt_with_key at h
  cases hhn : dec_slice_of_u8 mem np nl with
  | error e => simp [hhn] at h
  | ok nonce =>
  simp only [hhn] at h
  cases hnew : Crypter.new ce.cipher true key nonce with
  | error e => simp [hnew] at h
  | ok enc0 =>
  simp only [hnew] at h
  cases hha : dec_slice_of_u8 mem ap al with
  | error e => simp [hha] at h
  | ok auth =>
  simp only [hha] at h
  cases hiov : dec_iovec_slice mem dp dl with
  | error e => simp [hiov] at h
  | ok iovs =>
  simp only [hiov] at h
  refine ⟨ce, iovs, rfl, rfl, ?_⟩
  cases hfin : (transformIovs (enc0.aad_update auth) ce.spec.block_size mem iovs).1.finalize with
  | error e => simp [hfin] at h
  | ok u =>
  simp only [hfin] at h
  cases htag : (transformIovs (enc0.aad_update auth) ce.spec.block_size mem iovs).1.get_tag tl with
  | error e => simp [htag] at h
  | ok tagbuf =>
  have hcip : (transformIovs (enc0.aad_update auth) ce.spec.block_size mem iovs).1.cipher = ce.cipher := by
    rw [(transformIovs_fields ce.spec.block_size iovs (enc0.aad_update auth) mem).1]
    have hc0 := (Crypter.new_ok hnew).1
    subst hc0
    rfl
  unfold Crypter.get_tag at htag
  by_cases hc : tl = (transformIovs (enc0.aad_update auth) ce.spec.block_size mem iovs).1.cipher.tag_size
  · rw [hcip] at hc; exact hc
  · rw [if_neg hc] at htag; simp at htag

theorem aead_encrypt_iovec_err (ctx : WasiCtx) (mem : List Nat)
    (aead np nl ap al dp dl tp tl : Nat) (e : Error)
    (he : dec_iovec_slice mem dp dl = .error e) :
    (∃ e', (crypto_aead_encrypt ctx mem aead np nl ap al dp dl tp tl).1 = .error e') ∧
    (crypto_aead_encrypt ctx mem aead np nl ap al dp dl tp tl).2 = mem := by
  unfold crypto_aead_encrypt
  cases hget : get_cipher_entry ctx aead with
  | error e1 => exact ⟨⟨e1, rfl⟩, rfl⟩
  | ok ce =>
  dsimp only
  cases hkey : dec_slice_of_u8 mem ce.key_ptr ce.key_len with
  | error e1 => exact ⟨⟨e1, rfl⟩, rfl⟩
  | ok key =>
  unfold aead_encrypt_with_key
  dsimp only
  cases hhn : dec_slice_of_u8 mem np nl with
  | error e1 => exact ⟨⟨e1, rfl⟩, rfl⟩
  | ok nonce =>
  dsimp only
  cases hnew : Crypter.new ce.cipher true key nonce with
  | error e1 => exact ⟨⟨.EINVAL, rfl⟩, rfl⟩
  | ok enc0 =>
  dsimp only
  cases hha : dec_slice_of_u8 mem ap al with
  | error e1 => exact ⟨⟨e1, rfl⟩, rfl⟩
  | ok auth =>
  dsimp only
  rw [he]
  exact ⟨⟨e, rfl⟩, rfl⟩

theorem aead_decrypt_ok_elim (ctx : WasiCtx) (mem : List Nat)
    (aead np nl ap al dp dl tp tl : Nat)
    (h : (crypto_aead_decrypt ctx mem aead np nl ap al dp dl tp tl).1 = .ok ()) :
    ∃ ce iovs, get_cipher_entry ctx aead = .ok ce ∧
      dec_iovec_slice mem dp dl = .ok iovs := by
  unfold crypto_aead_decrypt at h
  cases hget : get_cipher_entry ctx aead with
  | error e => simp [hget] at h
  | ok ce =>
  simp only [hget] at h
  cases hkey : dec_slice_of_u8 mem ce.key_ptr ce.key_len with
  | error e => simp [hkey] at h
  | ok key =>
  simp only [hkey] at h
  unfold aead_decrypt_with_key at h
  cases hhn : dec_slice_of_u8 mem np nl with
  | error e => simp [hhn] at h
  | ok nonce =>
  simp only [hhn] at h
  cases hnew : Crypter.new ce.cipher false key nonce with
  | error e => simp [hnew] at h
  | ok dec0 =>
  simp only [hnew] at h
  cases hha : dec_slice_of_u8 mem ap al with
  | error e => simp [hha] at h
  | ok auth =>
  simp only [hha] at h
  cases hht : dec_slice_of_u8 mem tp tl with
  | error e => simp [hht] at h
  | ok tagv =>
  simp only [hht] at h
  cases hiov : dec_iovec_slice mem dp dl with
  | error e => simp [hiov] at h
  | ok iovs =>
  exact ⟨ce, iovs, rfl, rfl⟩

theorem aead_decrypt_iovec_err (ctx : WasiCtx) (mem : List Nat)
    (aead np nl ap al dp dl tp tl : Nat) (e : Error)
    (he : dec_iovec_slice mem dp dl = .error e) :
    (∃ e', (crypto_aead_decrypt ctx mem aead np nl ap al dp dl tp tl).1 = .error e') ∧
    (crypto_aead_decrypt ctx mem aead np nl ap al dp dl tp tl).2 = mem := by
  unfold crypto_aead_decrypt
  cases hget : get_cipher_entry ctx aead with
  | error e1 => exact ⟨⟨e1, rfl⟩, rfl⟩
  | ok ce =>
  dsimp only
  cases hkey : dec_slice_of_u8 mem ce.key_ptr ce.key_len with
  | error e1 => exact ⟨⟨e1, rfl⟩, rfl⟩
  | ok key =>
  unfold aead_decrypt_with_key
  dsimp only
  cases hhn : dec_slice_of_u8 mem np nl with
  | error e1 => exact ⟨⟨e1, rfl⟩, rfl⟩
  | ok nonce =>
  dsimp only
  cases hnew : Crypter.new ce.cipher false key nonce with
  | error e1 => exact ⟨⟨.EINVAL, rfl⟩, rfl⟩
  | ok dec0 =>
  dsimp only
  cases hha : dec_slice_of_u8 mem ap al with
  | error e1 => exact ⟨⟨e1, rfl⟩, rfl⟩
  | ok auth =>
  dsimp only
  cases hht : dec_slice_of_u8 mem tp tl with
  | error e1 => exact ⟨⟨e1, rfl⟩, rfl⟩
  | ok tagv =>
  dsimp only
  rw [he]
  exact ⟨⟨e, rfl⟩, rfl⟩

/-- C1: guest-memory access of the bulk transform is gated by the
bounds-checked iovec decoder — a successful `aead_encrypt`/`aead_decrypt`
implies the iovec list decoded successfully with every region validated
in bounds, and if the decoder rejects the iovec array (any pair out of
bounds), the call returns an error with guest memory completely
untouched. -/
theorem aead_iovec_bounds_checked (ctx : WasiCtx) (mem : List Nat)
    (aead np nl ap al dp dl tp tl : Nat) :
    (∀ iovs, dec_iovec_slice mem dp dl = .ok iovs →
      ∀ iov ∈ iovs, iov.buf + iov.buf_len ≤ mem.length) ∧
    ((crypto_aead_encrypt ctx mem aead np nl ap al dp dl tp tl).1 = .ok () →
      ∃ iovs, dec_iovec_slice mem dp dl = .ok iovs ∧
        ∀ iov ∈ iovs, iov.buf + iov.buf_len ≤ mem.length) ∧
    (∀ e, dec_iovec_slice mem dp dl = .error e →
      (∃ e', (crypto_aead_encrypt ctx mem aead np nl ap al dp dl tp tl).1 = .error e') ∧
      (crypto_aead_encrypt ctx mem aead np nl ap al dp dl tp tl).2 = mem) ∧
    ((crypto_aead_decrypt ctx mem aead np nl ap al dp dl tp tl).1 = .ok () →
      ∃ iovs, dec_iovec_slice mem dp dl = .ok iovs ∧
        ∀ iov ∈ iovs, iov.buf + iov.buf_len ≤ mem.length) ∧
    (∀ e, dec_iovec_slice mem dp dl = .error e →
      (∃ e', (crypto_aead_decrypt ctx mem aead np nl ap al dp dl tp tl).1 = .error e') ∧
      (crypto_aead_decrypt ctx mem aead np nl ap al dp dl tp tl).2 = mem) := by
  refine ⟨fun iovs h => dec_iovec_slice_ok_bounds h, ?_, ?_, ?_, ?_⟩
  · intro h
    obtain ⟨ce, iovs, _, hiov, _⟩ := aead_encrypt_ok_elim ctx mem aead np nl ap al dp dl tp tl h
    exact ⟨iovs, hiov, dec_iovec_slice_ok_bounds hiov⟩
  · intro e he
    exact aead_encrypt_iovec_err ctx mem aead np nl ap al dp dl tp tl e he
  · intro h
    obtain ⟨ce, iovs, _, hiov⟩ := aead_decrypt_ok_elim ctx mem aead np nl ap al dp dl tp tl h
    exact ⟨iovs, hiov, dec_iovec_slice_ok_bounds hiov⟩
  · intro e he
    exact aead_decrypt_iovec_err ctx mem aead np nl ap al dp dl tp tl e he

/-- C1 witness: a 16-byte guest memory whose single iovec descriptor
claims the region (200, 5), far out of bounds — the decoder rejects it
and an encrypt over it errors with memory unchanged. -/
theorem aead_iovec_bounds_checked_witness :
    (∃ e', (crypto_aead_encrypt ⟨[]⟩ [200, 0, 0, 0, 5, 0, 0, 0, 0, 0, 0, 0, 0, 0, 0, 0]
        0 0 0 0 0 0 1 0 0).1 = .error e') ∧
    (crypto_aead_encrypt ⟨[]⟩ [200, 0, 0, 0, 5, 0, 0, 0, 0, 0, 0, 0, 0, 0, 0, 0]
        0 0 0 0 0 0 1 0 0).2 = [200, 0, 0, 0, 5, 0, 0, 0, 0, 0, 0, 0, 0, 0, 0, 0] :=
  (aead_iovec_bounds_checked ⟨[]⟩ [200, 0, 0, 0, 5, 0, 0, 0, 0, 0, 0, 0, 0, 0, 0, 0]
    0 0 0 0 0 0 1 0 0).2.2.1 .EFAULT rfl

/-- C5: the cipher session stores only the key's guest location — on an
open session, if the recorded location no longer fits in guest memory
both `aead_encrypt` and `aead_decrypt` fail out-of-bounds with memory
untouched, and whenever the location decodes, each call factors through
the key bytes currently residing at that location (so two calls on the
same handle use whatever bytes sit there at each call). -/
theorem aead_key_location_reread (ctx : WasiCtx) (mem : List Nat)
    (aead np nl ap al dp dl tp tl : Nat) (ce : CipherEntry)
    (hce : get_cipher_entry ctx aead = .ok ce) :
    (ce.key_ptr + ce.key_len > mem.length →
      crypto_aead_encrypt ctx mem aead np nl ap al dp dl tp tl = (.error .EFAULT, mem) ∧
      crypto_aead_decrypt ctx mem aead np nl ap al dp dl tp tl = (.error .EFAULT, mem)) ∧
    (∀ key, dec_slice_of_u8 mem ce.key_ptr ce.key_len = .ok key →
      crypto_aead_encrypt ctx mem aead np nl ap al dp dl tp tl =
        aead_encrypt_with_key ce key mem np nl ap al dp dl tp tl ∧
      crypto_aead_decrypt ctx mem aead np nl ap al dp dl tp tl =
        aead_decrypt_with_key ce key mem np nl ap al dp dl tp tl) := by
  constructor
  · intro hoob
    have hk : dec_slice_of_u8 mem ce.key_ptr ce.key_len = .error .EFAULT := by
      unfold dec_slice_of_u8
      rw [if_neg (by omega)]
    constructor
    · unfold crypto_aead_encrypt
      rw [hce]
      dsimp only
      rw [hk]
    · unfold crypto_aead_decrypt
      rw [hce]
      dsimp only
      rw [hk]
  · intro key hk
    constructor
    · unfold crypto_aead_encrypt
      rw [hce]
      dsimp only
      rw [hk]
    · unfold crypto_aead_decrypt
      rw [hce]
      dsimp only
      rw [hk]

/-- C5 witness: on the concrete session of `ctxRT` the calls factor
through the key bytes currently at offset 0; and on a session whose
recorded key location (100, 16) exceeds the 23-byte memory, encrypt and
decrypt fail out-of-bounds leaving memory unchanged. -/
theorem aead_key_location_reread_witness :
    (crypto_aead_encrypt ctxRT memRT 0 16 12 0 0 44 2 28 16 =
      aead_encrypt_with_key ⟨a128gcmSpec, 0, 16, a128gcmSpec⟩ (readBytes memRT 0 16) memRT 16 12 0 0 44 2 28 16 ∧
     crypto_aead_decrypt ctxRT memRT 0 16 12 0 0 44 2 28 16 =
      aead_decrypt_with_key ⟨a128gcmSpec, 0, 16, a128gcmSpec⟩ (readBytes memRT 0 16) memRT 16 12 0 0 44 2 28 16) ∧
    (crypto_aead_encrypt ⟨[(0, ⟨a128gcmSpec, 100, 16, a128gcmSpec⟩)]⟩ memOpen 0 0 0 0 0 0 0 0 0 =
      (.error .EFAULT, memOpen) ∧
     crypto_aead_decrypt ⟨[(0, ⟨a128gcmSpec, 100, 16, a128gcmSpec⟩)]⟩ memOpen 0 0 0 0 0 0 0 0 0 =
      (.error .EFAULT, memOpen)) :=
  ⟨(aead_key_location_reread ctxRT memRT 0 16 12 0 0 44 2 28 16
      ⟨a128gcmSpec, 0, 16, a128gcmSpec⟩ rfl).2 (readBytes memRT 0 16) rfl,
   (aead_key_location_reread ⟨[(0, ⟨a128gcmSpec, 100, 16, a128gcmSpec⟩)]⟩ memOpen
      0 0 0 0 0 0 0 0 0 ⟨a128gcmSpec, 100, 16, a128gcmSpec⟩ rfl).1 (by decide)⟩

/-- C6: `aead_encrypt` succeeds only when the declared tag length equals
the algorithm's tag size (16 for the registered A128GCM), and a call on
an open session whose tag length differs fails with an error instead of
writing a tag. -/
theorem aead_encrypt_tag_len_check (ctx : WasiCtx) (mem : List Nat)
    (aead np nl ap al dp dl tp tl : Nat) (ce : CipherEntry)
    (hce : get_cipher_entry ctx aead = .ok ce) :
    ((crypto_aead_encrypt ctx mem aead np nl ap al dp dl tp tl).1 = .ok () →
      tl = ce.cipher.tag_size) ∧
    (tl ≠ ce.cipher.tag_size →
      ∃ e, (crypto_aead_encrypt ctx mem aead np nl ap al dp dl tp tl).1 = .error e) := by
  constructor
  · intro h
    obtain ⟨ce', iovs, hce', hiov, htl⟩ := aead_encrypt_ok_elim ctx mem aead np nl ap al dp dl tp tl h
    rw [hce] at hce'
    injection hce' with hEq
    subst hEq
    exact htl
  · intro hne
    cases hres : (crypto_aead_encrypt ctx mem aead np nl ap al dp dl tp tl).1 with
    | error e => exact ⟨e, rfl⟩
    | ok u =>
      cases u
      exfalso
      obtain ⟨ce', iovs, hce', hiov, htl⟩ := aead_encrypt_ok_elim ctx mem aead np nl ap al dp dl tp tl hres
      rw [hce] at hce'
      injection hce' with hEq
      subst hEq
      exact hne htl

/-- C6 witness: on the open A128GCM session of `ctxRT` a tag length of
5 (instead of the tag size 16) makes encrypt fail. -/
theorem aead_encrypt_tag_len_check_witness :
    ∃ e, (crypto_aead_encrypt ctxRT memRT 0 16 12 0 0 44 2 28 5).1 = .error e :=
  (aead_encrypt_tag_len_check ctxRT memRT 0 16 12 0 0 44 2 28 5
    ⟨a128gcmSpec, 0, 16, a128gcmSpec⟩ rfl).2 (by decide)

theorem aead_decrypt_pipeline (ctx : WasiCtx) (mem : List Nat)
    (aead np nl ap al dp dl tp tl : Nat) (ce : CipherEntry) (iovs : List Iovec)
    (hce : get_cipher_entry ctx aead = .ok ce)
    (hkb : ce.key_ptr + ce.key_len ≤ mem.length)
    (hkl : ce.key_len = ce.cipher.key_size)
    (hnb : np + nl ≤ mem.length) (hnl : nl = ce.cipher.nonce_size)
    (hab : ap + al ≤ mem.length)
    (htb : tp + tl ≤ mem.length)
    (hiov : dec_iovec_slice mem dp dl = .ok iovs) :
    crypto_aead_decrypt ctx mem aead np nl ap al dp dl tp tl =
      ((transformIovs
          ⟨ce.cipher, readBytes mem ce.key_ptr ce.key_len, readBytes mem np nl, false, 0,
            readBytes mem ap al, [], some (readBytes mem tp tl)⟩
          ce.spec.block_size mem iovs).1.finalize,
       (transformIovs
          ⟨ce.cipher, readBytes mem ce.key_ptr ce.key_len, readBytes mem np nl, false, 0,
            readBytes mem ap al, [], some (readBytes mem tp tl)⟩
          ce.spec.block_size mem iovs).2) := by
  have hkey : dec_slice_of_u8 mem ce.key_ptr ce.key_len = .ok (readBytes mem ce.key_ptr ce.key_len) := by
    unfold dec_slice_of_u8; rw [if_pos hkb]
  have hn : dec_slice_of_u8 mem np nl = .ok (readBytes mem np nl) := by
    unfold dec_slice_of_u8; rw [if_pos hnb]
  have ha : dec_slice_of_u8 mem ap al = .ok (readBytes mem ap al) := by
    unfold dec_slice_of_u8; rw [if_pos hab]
  have ht : dec_slice_of_u8 mem tp tl = .ok (readBytes mem tp tl) := by
    unfold dec_slice_of_u8; rw [if_pos htb]
  have hklen : (readBytes mem ce.key_ptr ce.key_len).length = ce.cipher.key_size := by
    rw [readBytes_length _ _ _ hkb, hkl]
  have hnlen : (readBytes mem np nl).length = ce.cipher.nonce_size := by
    rw [readBytes_length _ _ _ hnb, hnl]
  have hnew : Crypter.new ce.cipher false (readBytes mem ce.key_ptr ce.key_len) (readBytes mem np nl)
      = .ok ⟨ce.cipher, readBytes mem ce.key_ptr ce.key_len, readBytes mem np nl, false, 0, [], [], none⟩ := by
    unfold Crypter.new
    rw [if_pos ⟨hklen, hnlen⟩]
  unfold crypto_aead_decrypt
  rw [hce]
  dsimp only
  rw [hkey]
  dsimp only
  unfold aead_decrypt_with_key
  rw [hn]
  dsimp only
  rw [hnew]
  dsimp only
  rw [ha]
  dsimp only
  rw [ht]
  dsimp only
  rw [hiov]
  dsimp only
  simp only [Crypter.aad_update, Crypter.set_tag, List.nil_append]
  rcases Crypter.finalize_cases
    (transformIovs
      ⟨ce.cipher, readBytes mem ce.key_ptr ce.key_len, readBytes mem np nl, false, 0,
        readBytes mem ap al, [], some (readBytes mem tp tl)⟩
      ce.spec.block_size mem iovs).1 with hf | hf <;> rw [hf]

theorem aead_encrypt_pipeline (ctx : WasiCtx) (mem : List Nat)
    (aead np nl ap al dp dl tp tl : Nat) (ce : CipherEntry) (iovs : List Iovec)
    (hce : get_cipher_entry ctx aead = .ok ce)
    (hkb : ce.key_ptr + ce.key_len ≤ mem.length)
    (hkl : ce.key_len = ce.cipher.key_size)
    (hnb : np + nl ≤ mem.length) (hnl : nl = ce.cipher.nonce_size)
    (hab : ap + al ≤ mem.length)
    (hiov : dec_iovec_slice mem dp dl = .ok iovs) :
    crypto_aead_encrypt ctx mem aead np nl ap al dp dl tp tl =
      (match (transformIovs
          ⟨ce.cipher, readBytes mem ce.key_ptr ce.key_len, readBytes mem np nl, true, 0,
            readBytes mem ap al, [], none⟩
          ce.spec.block_size mem iovs).1.finalize with
       | .error _ => (.error .EINVAL,
          (transformIovs
            ⟨ce.cipher, readBytes mem ce.key_ptr ce.key_len, readBytes mem np nl, true, 0,
              readBytes mem ap al, [], none⟩
            ce.spec.block_size mem iovs).2)
       | .ok _ =>
         match (transformIovs
            ⟨ce.cipher, readBytes mem ce.key_ptr ce.key_len, readBytes mem np nl, true, 0,
              readBytes mem ap al, [], none⟩
            ce.spec.block_size mem iovs).1.get_tag tl with
         | .error _ => (.error .EINVAL,
            (transformIovs
              ⟨ce.cipher, readBytes mem ce.key_ptr ce.key_len, readBytes mem np nl, true, 0,
                readBytes mem ap al, [], none⟩
              ce.spec.block_size mem iovs).2)
         | .ok tag_buf =>
           match enc_slice_of_u8
              (transformIovs
                ⟨ce.cipher, readBytes mem ce.key_ptr ce.key_len, readBytes mem np nl, true, 0,
                  readBytes mem ap al, [], none⟩
                ce.spec.block_size mem iovs).2 tag_buf tp with
           | .error e => (.error e,
              (transformIovs
                ⟨ce.cipher, readBytes mem ce.key_ptr ce.key_len, readBytes mem np nl, true, 0,
                  readBytes mem ap al, [], none⟩
                ce.spec.block_size mem iovs).2)
           | .ok memOut => (.ok (), memOut)) := by
  have hkey : dec_slice_of_u8 mem ce.key_ptr ce.key_len = .ok (readBytes mem ce.key_ptr ce.key_len) := by
    unfold dec_slice_of_u8; rw [if_pos hkb]
  have hn : dec_slice_of_u8 mem np nl = .ok (readBytes mem np nl) := by
    unfold dec_slice_of_u8; rw [if_pos hnb]
  have ha : dec_slice_of_u8 mem ap al = .ok (readBytes mem ap al) := by
    unfold dec_slice_of_u8; rw [if_pos hab]
  have hklen : (readBytes mem ce.key_ptr ce.key_len).length = ce.cipher.key_size := by
    rw [readBytes_length _ _ _ hkb, hkl]
  have hnlen : (readBytes mem np nl).length = ce.cipher.nonce_size := by
    rw [readBytes_length _ _ _ hnb, hnl]
  have hnew : Crypter.new ce.cipher true (readBytes mem ce.key_ptr ce.key_len) (readBytes mem np nl)
      = .ok ⟨ce.cipher, readBytes mem ce.key_ptr ce.key_len, readBytes mem np nl, true, 0, [], [], none⟩ := by
    unfold Crypter.new
    rw [if_pos ⟨hklen, hnlen⟩]
  unfold crypto_aead_encrypt
  rw [hce]
  dsimp only
  rw [hkey]
  dsimp only
  unfold aead_encrypt_with_key
  rw [hn]
  dsimp only
  rw [hnew]
  dsimp only
  rw [ha]
  dsimp only
  rw [hiov]
  dsimp only
  simp only [Crypter.aad_update, List.nil_append]

/-- C7: decrypt failure is not atomic with respect to guest memory — on
an open session with in-bounds arguments, `aead_decrypt` always returns
the fully transformed memory (the data iovecs overwritten in place by
the bulk transform) paired with whatever the finalize step decides, and
finalize rejects with `EINVAL` exactly when the recorded tag does not
authenticate; symmetrically, `aead_encrypt` whose tag stage errs (tag
length differing from the tag size) returns `EINVAL` with the
ciphertext already written into the guest buffers. -/
theorem aead_failure_not_atomic (ctx : WasiCtx) (mem : List Nat)
    (aead np nl ap al dp dl tp tl : Nat) (ce : CipherEntry) (iovs : List Iovec)
    (hce : get_cipher_entry ctx aead = .ok ce)
    (hkb : ce.key_ptr + ce.key_len ≤ mem.length)
    (hkl : ce.key_len = ce.cipher.key_size)
    (hnb : np + nl ≤ mem.length) (hnl : nl = ce.cipher.nonce_size)
    (hab : ap + al ≤ mem.length)
    (htb : tp + tl ≤ mem.length)
    (hiov : dec_iovec_slice mem dp dl = .ok iovs) :
    (crypto_aead_decrypt ctx mem aead np nl ap al dp dl tp tl =
      ((transformIovs
          ⟨ce.cipher, readBytes mem ce.key_ptr ce.key_len, readBytes mem np nl, false, 0,
            readBytes mem ap al, [], some (readBytes mem tp tl)⟩
          ce.spec.block_size mem iovs).1.finalize,
       (transformIovs
          ⟨ce.cipher, readBytes mem ce.key_ptr ce.key_len, readBytes mem np nl, false, 0,
            readBytes mem ap al, [], some (readBytes mem tp tl)⟩
          ce.spec.block_size mem iovs).2)) ∧
    (∀ c : Crypter, c.encryptMode = false → ∀ t, c.tagSet = some t →
      t ≠ tagFn c.cipher.tag_size c.key c.nonce c.aadAcc c.ctAcc →
      c.finalize = .error .EINVAL) ∧
    (tl ≠ ce.cipher.tag_size →
      crypto_aead_encrypt ctx mem aead np nl ap al dp dl tp tl =
        (.error .EINVAL,
         (transformIovs
            ⟨ce.cipher, readBytes mem ce.key_ptr ce.key_len, readBytes mem np nl, true, 0,
              readBytes mem ap al, [], none⟩
            ce.spec.block_size mem iovs).2)) := by
  refine ⟨aead_decrypt_pipeline ctx mem aead np nl ap al dp dl tp tl ce iovs
    hce hkb hkl hnb hnl hab htb hiov, ?_, ?_⟩
  · intro c hm t hts hne
    simp [Crypter.finalize, hm, hts, hne]
  · intro htl
    rw [aead_encrypt_pipeline ctx mem aead np nl ap al dp dl tp tl ce iovs
      hce hkb hkl hnb hnl hab hiov]
    have hmode : (transformIovs
        ⟨ce.cipher, readBytes mem ce.key_ptr ce.key_len, readBytes mem np nl, true, 0,
          readBytes mem ap al, [], none⟩
        ce.spec.block_size mem iovs).1.encryptMode = true :=
      (transformIovs_fields ce.spec.block_size iovs _ mem).2.2.2.1
    have hcip : (transformIovs
        ⟨ce.cipher, readBytes mem ce.key_ptr ce.key_len, readBytes mem np nl, true, 0,
          readBytes mem ap al, [], none⟩
        ce.spec.block_size mem iovs).1.cipher = ce.cipher :=
      (transformIovs_fields ce.spec.block_size iovs _ mem).1
    have hfin : (transformIovs
        ⟨ce.cipher, readBytes mem ce.key_ptr ce.key_len, readBytes mem np nl, true, 0,
          readBytes mem ap al, [], none⟩
        ce.spec.block_size mem iovs).1.finalize = .ok () := by
      simp [Crypter.finalize, hmode]
    have htag : (transformIovs
        ⟨ce.cipher, readBytes mem ce.key_ptr ce.key_len, readBytes mem np nl, true, 0,
          readBytes mem ap al, [], none⟩
        ce.spec.block_size mem iovs).1.get_tag tl = .error .EINVAL := by
      simp [Crypter.get_tag, hcip, htl]
    rw [hfin, htag]

/-- C7 witness: the concrete scenario session with an all-zero 16-byte
slot supplied as the tag — decrypt returns the transformed memory paired
with the finalize verdict. -/
theorem aead_failure_not_atomic_witness :
    crypto_aead_decrypt ctxRT memRT 0 16 12 0 0 44 2 28 16 =
      ((transformIovs
          ⟨a128gcmSpec, readBytes memRT 0 16, readBytes memRT 16 12, false, 0,
            readBytes memRT 0 0, [], some (readBytes memRT 28 16)⟩
          a128gcmSpec.block_size memRT [⟨60, 5⟩, ⟨65, 12⟩]).1.finalize,
       (transformIovs
          ⟨a128gcmSpec, readBytes memRT 0 16, readBytes memRT 16 12, false, 0,
            readBytes memRT 0 0, [], some (readBytes memRT 28 16)⟩
          a128gcmSpec.block_size memRT [⟨60, 5⟩, ⟨65, 12⟩]).2) :=
  (aead_failure_not_atomic ctxRT memRT 0 16 12 0 0 44 2 28 16
    ⟨a128gcmSpec, 0, 16, a128gcmSpec⟩ [⟨60, 5⟩, ⟨65, 12⟩]
    rfl (by decide) rfl (by decide) rfl (by decide) (by decide) rfl).1

theorem tagFn_length (len : Nat) (key nonce aad ct : List Nat) :
    (tagFn len key nonce aad ct).length = len := by
  simp [tagFn]

theorem segsFit_plains : ∀ (iovs : List Iovec) (mem : List Nat),
    (∀ iov ∈ iovs, iov.buf + iov.buf_len ≤ mem.length) →
    SegsFit iovs (plainsOf mem iovs) := by
  intro iovs
  induction iovs with
  | nil => intro mem hb; trivial
  | cons iov rest ih =>
    intro mem hb
    exact ⟨readBytes_length _ _ _ (hb iov (by simp)),
      ih mem (fun j hj => hb j (by simp [hj]))⟩

/-- C4: the encrypt-then-decrypt round trip — on an open session with a
key of the declared key size, a nonce of the declared nonce size, any
AAD, and a plaintext laid out across any list of pairwise-disjoint
in-bounds iovecs (disjoint also from the key, nonce, AAD, tag and
descriptor regions, as a memory layout of independent arguments
requires), `aead_encrypt` succeeds preserving memory length (so each
iovec holds as many ciphertext bytes as it held of plaintext), and
`aead_decrypt` on the resulting memory with the same arguments and the
produced tag succeeds and restores every data iovec to exactly the
original plaintext bytes. -/
theorem aead_encrypt_decrypt_roundtrip (ctx : WasiCtx) (mem : List Nat)
    (aead np nl ap al dp dl tp tl : Nat) (ce : CipherEntry) (iovs : List Iovec)
    (hce : get_cipher_entry ctx aead = .ok ce)
    (hkb : ce.key_ptr + ce.key_len ≤ mem.length)
    (hkl : ce.key_len = ce.cipher.key_size)
    (hnb : np + nl ≤ mem.length) (hnl : nl = ce.cipher.nonce_size)
    (hab : ap + al ≤ mem.length)
    (htb : tp + tl ≤ mem.length) (htl : tl = ce.cipher.tag_size)
    (hiov : dec_iovec_slice mem dp dl = .ok iovs)
    (hpd : PairwiseDisj iovs)
    (hsep : ∀ iov ∈ iovs,
      Disj iov.buf iov.buf_len ce.key_ptr ce.key_len ∧
      Disj iov.buf iov.buf_len np nl ∧
      Disj iov.buf iov.buf_len ap al ∧
      Disj iov.buf iov.buf_len tp tl ∧
      Disj iov.buf iov.buf_len dp (8 * dl))
    (htsep : Disj tp tl ce.key_ptr ce.key_len ∧ Disj tp tl np nl ∧
      Disj tp tl ap al ∧ Disj tp tl dp (8 * dl)) :
    (crypto_aead_encrypt ctx mem aead np nl ap al dp dl tp tl).1 = .ok () ∧
    (crypto_aead_encrypt ctx mem aead np nl ap al dp dl tp tl).2.length = mem.length ∧
    (crypto_aead_decrypt ctx (crypto_aead_encrypt ctx mem aead np nl ap al dp dl tp tl).2 aead np nl ap al dp dl tp tl).1 = .ok () ∧
    plainsOf (crypto_aead_decrypt ctx (crypto_aead_encrypt ctx mem aead np nl ap al dp dl tp tl).2 aead np nl ap al dp dl tp tl).2 iovs = plainsOf mem iovs ∧
    (crypto_aead_decrypt ctx (crypto_aead_encrypt ctx mem aead np nl ap al dp dl tp tl).2 aead np nl ap al dp dl tp tl).2.length = mem.length := by
  subst htl
  subst hnl
  have hb0 : ∀ iov ∈ iovs, iov.buf + iov.buf_len ≤ mem.length := dec_iovec_slice_ok_bounds hiov
  have hfit : SegsFit iovs (xorSegs (readBytes mem ce.key_ptr ce.key_len) (readBytes mem np ce.cipher.nonce_size) 0 (plainsOf mem iovs)) :=
    segsFit_xorSegs_plains (readBytes mem ce.key_ptr ce.key_len) (readBytes mem np ce.cipher.nonce_size) iovs 0 mem hb0
  have hmem1len : (writeSegs mem iovs (xorSegs (readBytes mem ce.key_ptr ce.key_len) (readBytes mem np ce.cipher.nonce_size) 0 (plainsOf mem iovs))).length = mem.length :=
    writeSegs_length iovs _ mem hfit hb0
  have htaglen : (tagFn ce.cipher.tag_size (readBytes mem ce.key_ptr ce.key_len) (readBytes mem np ce.cipher.nonce_size) (readBytes mem ap al) (catSegs (xorSegs (readBytes mem ce.key_ptr ce.key_len) (readBytes mem np ce.cipher.nonce_size) 0 (plainsOf mem iovs)))).length = ce.cipher.tag_size := tagFn_length _ _ _ _ _
  have htpb1 : tp + (tagFn ce.cipher.tag_size (readBytes mem ce.key_ptr ce.key_len) (readBytes mem np ce.cipher.nonce_size) (readBytes mem ap al) (catSegs (xorSegs (readBytes mem ce.key_ptr ce.key_len) (readBytes mem np ce.cipher.nonce_size) 0 (plainsOf mem iovs)))).length ≤ (writeSegs mem iovs (xorSegs (readBytes mem ce.key_ptr ce.key_len) (readBytes mem np ce.cipher.nonce_size) 0 (plainsOf mem iovs))).length := by
    rw [htaglen, hmem1len]; exact htb
  have hmem2len : (writeBytes (writeSegs mem iovs (xorSegs (readBytes mem ce.key_ptr ce.key_len) (readBytes mem np ce.cipher.nonce_size) 0 (plainsOf mem iovs))) tp (tagFn ce.cipher.tag_size (readBytes mem ce.key_ptr ce.key_len) (readBytes mem np ce.cipher.nonce_size) (readBytes mem ap al) (catSegs (xorSegs (readBytes mem ce.key_ptr ce.key_len) (readBytes mem np ce.cipher.nonce_size) 0 (plainsOf mem iovs))))).length = mem.length := by
    rw [writeBytes_length _ _ _ htpb1, hmem1len]
  have htr := transformIovs_spec ce.spec.block_size iovs (⟨ce.cipher, readBytes mem ce.key_ptr ce.key_len, readBytes mem np ce.cipher.nonce_size, true, 0, readBytes mem ap al, [], none⟩ : Crypter) mem hb0 hpd
  have hE : crypto_aead_encrypt ctx mem aead np ce.cipher.nonce_size ap al dp dl tp ce.cipher.tag_size = (.ok (), writeBytes (writeSegs mem iovs (xorSegs (readBytes mem ce.key_ptr ce.key_len) (readBytes mem np ce.cipher.nonce_size) 0 (plainsOf mem iovs))) tp (tagFn ce.cipher.tag_size (readBytes mem ce.key_ptr ce.key_len) (readBytes mem np ce.cipher.nonce_size) (readBytes mem ap al) (catSegs (xorSegs (readBytes mem ce.key_ptr ce.key_len) (readBytes mem np ce.cipher.nonce_size) 0 (plainsOf mem iovs))))) := by
    rw [aead_encrypt_pipeline ctx mem aead np (ce.cipher.nonce_size) ap al dp dl tp
      (ce.cipher.tag_size) ce iovs hce hkb hkl hnb rfl hab hiov, htr]
    simp [Crypter.finalize, Crypter.get_tag, enc_slice_of_u8, htpb1]
  have hkb2 : ce.key_ptr + ce.key_len ≤ (writeBytes (writeSegs mem iovs (xorSegs (readBytes mem ce.key_ptr ce.key_len) (readBytes mem np ce.cipher.nonce_size) 0 (plainsOf mem iovs))) tp (tagFn ce.cipher.tag_size (readBytes mem ce.key_ptr ce.key_len) (readBytes mem np ce.cipher.nonce_size) (readBytes mem ap al) (catSegs (xorSegs (readBytes mem ce.key_ptr ce.key_len) (readBytes mem np ce.cipher.nonce_size) 0 (plainsOf mem iovs))))).length := by rw [hmem2len]; exact hkb
  have hnb2 : np + ce.cipher.nonce_size ≤ (writeBytes (writeSegs mem iovs (xorSegs (readBytes mem ce.key_ptr ce.key_len) (readBytes mem np ce.cipher.nonce_size) 0 (plainsOf mem iovs))) tp (tagFn ce.cipher.tag_size (readBytes mem ce.key_ptr ce.key_len) (readBytes mem np ce.cipher.nonce_size) (readBytes mem ap al) (catSegs (xorSegs (readBytes mem ce.key_ptr ce.key_len) (readBytes mem np ce.cipher.nonce_size) 0 (plainsOf mem iovs))))).length := by rw [hmem2len]; exact hnb
  have hab2 : ap + al ≤ (writeBytes (writeSegs mem iovs (xorSegs (readBytes mem ce.key_ptr ce.key_len) (readBytes mem np ce.cipher.nonce_size) 0 (plainsOf mem iovs))) tp (tagFn ce.cipher.tag_size (readBytes mem ce.key_ptr ce.key_len) (readBytes mem np ce.cipher.nonce_size) (readBytes mem ap al) (catSegs (xorSegs (readBytes mem ce.key_ptr ce.key_len) (readBytes mem np ce.cipher.nonce_size) 0 (plainsOf mem iovs))))).length := by rw [hmem2len]; exact hab
  have htb2 : tp + ce.cipher.tag_size ≤ (writeBytes (writeSegs mem iovs (xorSegs (readBytes mem ce.key_ptr ce.key_len) (readBytes mem np ce.cipher.nonce_size) 0 (plainsOf mem iovs))) tp (tagFn ce.cipher.tag_size (readBytes mem ce.key_ptr ce.key_len) (readBytes mem np ce.cipher.nonce_size) (readBytes mem ap al) (catSegs (xorSegs (readBytes mem ce.key_ptr ce.key_len) (readBytes mem np ce.cipher.nonce_size) 0 (plainsOf mem iovs))))).length := by rw [hmem2len]; exact htb
  have hb2 : ∀ iov ∈ iovs, iov.buf + iov.buf_len ≤ (writeBytes (writeSegs mem iovs (xorSegs (readBytes mem ce.key_ptr ce.key_len) (readBytes mem np ce.cipher.nonce_size) 0 (plainsOf mem iovs))) tp (tagFn ce.cipher.tag_size (readBytes mem ce.key_ptr ce.key_len) (readBytes mem np ce.cipher.nonce_size) (readBytes mem ap al) (catSegs (xorSegs (readBytes mem ce.key_ptr ce.key_len) (readBytes mem np ce.cipher.nonce_size) 0 (plainsOf mem iovs))))).length := by
    intro j hj; rw [hmem2len]; exact hb0 j hj
  have hiov2 : dec_iovec_slice (writeBytes (writeSegs mem iovs (xorSegs (readBytes mem ce.key_ptr ce.key_len) (readBytes mem np ce.cipher.nonce_size) 0 (plainsOf mem iovs))) tp (tagFn ce.cipher.tag_size (readBytes mem ce.key_ptr ce.key_len) (readBytes mem np ce.cipher.nonce_size) (readBytes mem ap al) (catSegs (xorSegs (readBytes mem ce.key_ptr ce.key_len) (readBytes mem np ce.cipher.nonce_size) 0 (plainsOf mem iovs))))) dp dl = .ok iovs := by
    have hcongr : dec_iovec_slice (writeBytes (writeSegs mem iovs (xorSegs (readBytes mem ce.key_ptr ce.key_len) (readBytes mem np ce.cipher.nonce_size) 0 (plainsOf mem iovs))) tp (tagFn ce.cipher.tag_size (readBytes mem ce.key_ptr ce.key_len) (readBytes mem np ce.cipher.nonce_size) (readBytes mem ap al) (catSegs (xorSegs (readBytes mem ce.key_ptr ce.key_len) (readBytes mem np ce.cipher.nonce_size) 0 (plainsOf mem iovs))))) dp dl = dec_iovec_slice mem dp dl := by
      apply dec_iovec_slice_congr hmem2len
      intro i hi1 hi2
      have hstep1 : (writeBytes (writeSegs mem iovs (xorSegs (readBytes mem ce.key_ptr ce.key_len) (readBytes mem np ce.cipher.nonce_size) 0 (plainsOf mem iovs))) tp (tagFn ce.cipher.tag_size (readBytes mem ce.key_ptr ce.key_len) (readBytes mem np ce.cipher.nonce_size) (readBytes mem ap al) (catSegs (xorSegs (readBytes mem ce.key_ptr ce.key_len) (readBytes mem np ce.cipher.nonce_size) 0 (plainsOf mem iovs)))))[i]? = (writeSegs mem iovs (xorSegs (readBytes mem ce.key_ptr ce.key_len) (readBytes mem np ce.cipher.nonce_size) 0 (plainsOf mem iovs)))[i]? := by
        apply writeBytes_outside _ _ _ htpb1
        rw [htaglen]
        cases htsep.2.2.2 with
        | inl h => right; omega
        | inr h => left; omega
      have hstep2 : (writeSegs mem iovs (xorSegs (readBytes mem ce.key_ptr ce.key_len) (readBytes mem np ce.cipher.nonce_size) 0 (plainsOf mem iovs)))[i]? = mem[i]? := by
        apply writeSegs_outside iovs _ mem i hfit hb0
        intro j hj
        cases (hsep j hj).2.2.2.2 with
        | inl h => right; omega
        | inr h => left; omega
      rw [hstep1, hstep2]
    rw [hcongr]
    exact hiov
  have hkread : readBytes (writeBytes (writeSegs mem iovs (xorSegs (readBytes mem ce.key_ptr ce.key_len) (readBytes mem np ce.cipher.nonce_size) 0 (plainsOf mem iovs))) tp (tagFn ce.cipher.tag_size (readBytes mem ce.key_ptr ce.key_len) (readBytes mem np ce.cipher.nonce_size) (readBytes mem ap al) (catSegs (xorSegs (readBytes mem ce.key_ptr ce.key_len) (readBytes mem np ce.cipher.nonce_size) 0 (plainsOf mem iovs))))) ce.key_ptr ce.key_len = readBytes mem ce.key_ptr ce.key_len := by
    have h1 : readBytes (writeBytes (writeSegs mem iovs (xorSegs (readBytes mem ce.key_ptr ce.key_len) (readBytes mem np ce.cipher.nonce_size) 0 (plainsOf mem iovs))) tp (tagFn ce.cipher.tag_size (readBytes mem ce.key_ptr ce.key_len) (readBytes mem np ce.cipher.nonce_size) (readBytes mem ap al) (catSegs (xorSegs (readBytes mem ce.key_ptr ce.key_len) (readBytes mem np ce.cipher.nonce_size) 0 (plainsOf mem iovs))))) ce.key_ptr ce.key_len = readBytes (writeSegs mem iovs (xorSegs (readBytes mem ce.key_ptr ce.key_len) (readBytes mem np ce.cipher.nonce_size) 0 (plainsOf mem iovs))) ce.key_ptr ce.key_len := by
      apply readBytes_congr
      intro i hi1 hi2
      apply writeBytes_outside _ _ _ htpb1
      rw [htaglen]
      cases htsep.1 with
      | inl h => right; omega
      | inr h => left; omega
    have h2 : readBytes (writeSegs mem iovs (xorSegs (readBytes mem ce.key_ptr ce.key_len) (readBytes mem np ce.cipher.nonce_size) 0 (plainsOf mem iovs))) ce.key_ptr ce.key_len = readBytes mem ce.key_ptr ce.key_len :=
      writeSegs_frame iovs _ mem ce.key_ptr ce.key_len hfit hb0
        (fun j hj => ((hsep j hj).1).symm)
    rw [h1, h2]
  have hnread : readBytes (writeBytes (writeSegs mem iovs (xorSegs (readBytes mem ce.key_ptr ce.key_len) (readBytes mem np ce.cipher.nonce_size) 0 (plainsOf mem iovs))) tp (tagFn ce.cipher.tag_size (readBytes mem ce.key_ptr ce.key_len) (readBytes mem np ce.cipher.nonce_size) (readBytes mem ap al) (catSegs (xorSegs (readBytes mem ce.key_ptr ce.key_len) (readBytes mem np ce.cipher.nonce_size) 0 (plainsOf mem iovs))))) np ce.cipher.nonce_size = readBytes mem np ce.cipher.nonce_size := by
    have h1 : readBytes (writeBytes (writeSegs mem iovs (xorSegs (readBytes mem ce.key_ptr ce.key_len) (readBytes mem np ce.cipher.nonce_size) 0 (plainsOf mem iovs))) tp (tagFn ce.cipher.tag_size (readBytes mem ce.key_ptr ce.key_len) (readBytes mem np ce.cipher.nonce_size) (readBytes mem ap al) (catSegs (xorSegs (readBytes mem ce.key_ptr ce.key_len) (readBytes mem np ce.cipher.nonce_size) 0 (plainsOf mem iovs))))) np ce.cipher.nonce_size = readBytes (writeSegs mem iovs (xorSegs (readBytes mem ce.key_ptr ce.key_len) (readBytes mem np ce.cipher.nonce_size) 0 (plainsOf mem iovs))) np ce.cipher.nonce_size := by
      apply readBytes_congr
      intro i hi1 hi2
      apply writeBytes_outside _ _ _ htpb1
      rw [htaglen]
      cases htsep.2.1 with
      | inl h => right; omega
      | inr h => left; omega
    have h2 : readBytes (writeSegs mem iovs (xorSegs (readBytes mem ce.key_ptr ce.key_len) (readBytes mem np ce.cipher.nonce_size) 0 (plainsOf mem iovs))) np ce.cipher.nonce_size = readBytes mem np ce.cipher.nonce_size :=
      writeSegs_frame iovs _ mem np ce.cipher.nonce_size hfit hb0
        (fun j hj => ((hsep j hj).2.1).symm)
    rw [h1, h2]
  have haread : readBytes (writeBytes (writeSegs mem iovs (xorSegs (readBytes mem ce.key_ptr ce.key_len) (readBytes mem np ce.cipher.nonce_size) 0 (plainsOf mem iovs))) tp (tagFn ce.cipher.tag_size (readBytes mem ce.key_ptr ce.key_len) (readBytes mem np ce.cipher.nonce_size) (readBytes mem ap al) (catSegs (xorSegs (readBytes mem ce.key_ptr ce.key_len) (readBytes mem np ce.cipher.nonce_size) 0 (plainsOf mem iovs))))) ap al = readBytes mem ap al := by
    have h1 : readBytes (writeBytes (writeSegs mem iovs (xorSegs (readBytes mem ce.key_ptr ce.key_len) (readBytes mem np ce.cipher.nonce_size) 0 (plainsOf mem iovs))) tp (tagFn ce.cipher.tag_size (readBytes mem ce.key_ptr ce.key_len) (readBytes mem np ce.cipher.nonce_size) (readBytes mem ap al) (catSegs (xorSegs (readBytes mem ce.key_ptr ce.key_len) (readBytes mem np ce.cipher.nonce_size) 0 (plainsOf mem iovs))))) ap al = readBytes (writeSegs mem iovs (xorSegs (readBytes mem ce.key_ptr ce.key_len) (readBytes mem np ce.cipher.nonce_size) 0 (plainsOf mem iovs))) ap al := by
      apply readBytes_congr
      intro i hi1 hi2
      apply writeBytes_outside _ _ _ htpb1
      rw [htaglen]
      cases htsep.2.2.1 with
      | inl h => right; omega
      | inr h => left; omega
    have h2 : readBytes (writeSegs mem iovs (xorSegs (readBytes mem ce.key_ptr ce.key_len) (readBytes mem np ce.cipher.nonce_size) 0 (plainsOf mem iovs))) ap al = readBytes mem ap al :=
      writeSegs_frame iovs _ mem ap al hfit hb0
        (fun j hj => ((hsep j hj).2.2.1).symm)
    rw [h1, h2]
  have htread : readBytes (writeBytes (writeSegs mem iovs (xorSegs (readBytes mem ce.key_ptr ce.key_len) (readBytes mem np ce.cipher.nonce_size) 0 (plainsOf mem iovs))) tp (tagFn ce.cipher.tag_size (readBytes mem ce.key_ptr ce.key_len) (readBytes mem np ce.cipher.nonce_size) (readBytes mem ap al) (catSegs (xorSegs (readBytes mem ce.key_ptr ce.key_len) (readBytes mem np ce.cipher.nonce_size) 0 (plainsOf mem iovs))))) tp ce.cipher.tag_size = tagFn ce.cipher.tag_size (readBytes mem ce.key_ptr ce.key_len) (readBytes mem np ce.cipher.nonce_size) (readBytes mem ap al) (catSegs (xorSegs (readBytes mem ce.key_ptr ce.key_len) (readBytes mem np ce.cipher.nonce_size) 0 (plainsOf mem iovs))) := by
    have h := readBytes_writeBytes (writeSegs mem iovs (xorSegs (readBytes mem ce.key_ptr ce.key_len) (readBytes mem np ce.cipher.nonce_size) 0 (plainsOf mem iovs))) (tagFn ce.cipher.tag_size (readBytes mem ce.key_ptr ce.key_len) (readBytes mem np ce.cipher.nonce_size) (readBytes mem ap al) (catSegs (xorSegs (readBytes mem ce.key_ptr ce.key_len) (readBytes mem np ce.cipher.nonce_size) 0 (plainsOf mem iovs)))) tp htpb1
    rw [htaglen] at h
    exact h
  have hD := aead_decrypt_pipeline ctx (writeBytes (writeSegs mem iovs (xorSegs (readBytes mem ce.key_ptr ce.key_len) (readBytes mem np ce.cipher.nonce_size) 0 (plainsOf mem iovs))) tp (tagFn ce.cipher.tag_size (readBytes mem ce.key_ptr ce.key_len) (readBytes mem np ce.cipher.nonce_size) (readBytes mem ap al) (catSegs (xorSegs (readBytes mem ce.key_ptr ce.key_len) (readBytes mem np ce.cipher.nonce_size) 0 (plainsOf mem iovs))))) aead np (ce.cipher.nonce_size) ap al dp dl tp
    (ce.cipher.tag_size) ce iovs hce hkb2 hkl hnb2 rfl hab2 htb2 hiov2
  rw [hkread, hnread, haread, htread] at hD
  have htr2 := transformIovs_spec ce.spec.block_size iovs (⟨ce.cipher, readBytes mem ce.key_ptr ce.key_len, readBytes mem np ce.cipher.nonce_size, false, 0, readBytes mem ap al, [], some (tagFn ce.cipher.tag_size (readBytes mem ce.key_ptr ce.key_len) (readBytes mem np ce.cipher.nonce_size) (readBytes mem ap al) (catSegs (xorSegs (readBytes mem ce.key_ptr ce.key_len) (readBytes mem np ce.cipher.nonce_size) 0 (plainsOf mem iovs))))⟩ : Crypter) (writeBytes (writeSegs mem iovs (xorSegs (readBytes mem ce.key_ptr ce.key_len) (readBytes mem np ce.cipher.nonce_size) 0 (plainsOf mem iovs))) tp (tagFn ce.cipher.tag_size (readBytes mem ce.key_ptr ce.key_len) (readBytes mem np ce.cipher.nonce_size) (readBytes mem ap al) (catSegs (xorSegs (readBytes mem ce.key_ptr ce.key_len) (readBytes mem np ce.cipher.nonce_size) 0 (plainsOf mem iovs))))) hb2 hpd
  have hplains2 : plainsOf (writeBytes (writeSegs mem iovs (xorSegs (readBytes mem ce.key_ptr ce.key_len) (readBytes mem np ce.cipher.nonce_size) 0 (plainsOf mem iovs))) tp (tagFn ce.cipher.tag_size (readBytes mem ce.key_ptr ce.key_len) (readBytes mem np ce.cipher.nonce_size) (readBytes mem ap al) (catSegs (xorSegs (readBytes mem ce.key_ptr ce.key_len) (readBytes mem np ce.cipher.nonce_size) 0 (plainsOf mem iovs))))) iovs = xorSegs (readBytes mem ce.key_ptr ce.key_len) (readBytes mem np ce.cipher.nonce_size) 0 (plainsOf mem iovs) := by
    have h1 : plainsOf (writeBytes (writeSegs mem iovs (xorSegs (readBytes mem ce.key_ptr ce.key_len) (readBytes mem np ce.cipher.nonce_size) 0 (plainsOf mem iovs))) tp (tagFn ce.cipher.tag_size (readBytes mem ce.key_ptr ce.key_len) (readBytes mem np ce.cipher.nonce_size) (readBytes mem ap al) (catSegs (xorSegs (readBytes mem ce.key_ptr ce.key_len) (readBytes mem np ce.cipher.nonce_size) 0 (plainsOf mem iovs))))) iovs = plainsOf (writeSegs mem iovs (xorSegs (readBytes mem ce.key_ptr ce.key_len) (readBytes mem np ce.cipher.nonce_size) 0 (plainsOf mem iovs))) iovs := by
      apply plainsOf_congr
      intro j hj
      apply readBytes_congr
      intro i hi1 hi2
      apply writeBytes_outside _ _ _ htpb1
      rw [htaglen]
      cases (hsep j hj).2.2.2.1 with
      | inl h => left; omega
      | inr h => right; omega
    have h2 : plainsOf (writeSegs mem iovs (xorSegs (readBytes mem ce.key_ptr ce.key_len) (readBytes mem np ce.cipher.nonce_size) 0 (plainsOf mem iovs))) iovs = xorSegs (readBytes mem ce.key_ptr ce.key_len) (readBytes mem np ce.cipher.nonce_size) 0 (plainsOf mem iovs) :=
      plainsOf_writeSegs iovs _ mem hfit hb0 hpd
    rw [h1, h2]
  rw [htr2, hplains2] at hD
  have hinv : xorSegs (readBytes mem ce.key_ptr ce.key_len) (readBytes mem np ce.cipher.nonce_size) 0 (xorSegs (readBytes mem ce.key_ptr ce.key_len) (readBytes mem np ce.cipher.nonce_size) 0 (plainsOf mem iovs)) = plainsOf mem iovs :=
    xorSegs_xorSegs (readBytes mem ce.key_ptr ce.key_len) (readBytes mem np ce.cipher.nonce_size) (plainsOf mem iovs) 0
  rw [hinv] at hD
  simp only [Crypter.finalize, List.nil_append] at hD
  have hfitp : SegsFit iovs (plainsOf mem iovs) := segsFit_plains iovs mem hb0
  have hplainsF : plainsOf (writeSegs (writeBytes (writeSegs mem iovs (xorSegs (readBytes mem ce.key_ptr ce.key_len) (readBytes mem np ce.cipher.nonce_size) 0 (plainsOf mem iovs))) tp (tagFn ce.cipher.tag_size (readBytes mem ce.key_ptr ce.key_len) (readBytes mem np ce.cipher.nonce_size) (readBytes mem ap al) (catSegs (xorSegs (readBytes mem ce.key_ptr ce.key_len) (readBytes mem np ce.cipher.nonce_size) 0 (plainsOf mem iovs))))) iovs (plainsOf mem iovs)) iovs = plainsOf mem iovs :=
    plainsOf_writeSegs iovs _ (writeBytes (writeSegs mem iovs (xorSegs (readBytes mem ce.key_ptr ce.key_len) (readBytes mem np ce.cipher.nonce_size) 0 (plainsOf mem iovs))) tp (tagFn ce.cipher.tag_size (readBytes mem ce.key_ptr ce.key_len) (readBytes mem np ce.cipher.nonce_size) (readBytes mem ap al) (catSegs (xorSegs (readBytes mem ce.key_ptr ce.key_len) (readBytes mem np ce.cipher.nonce_size) 0 (plainsOf mem iovs))))) hfitp hb2 hpd
  have hlenF : (writeSegs (writeBytes (writeSegs mem iovs (xorSegs (readBytes mem ce.key_ptr ce.key_len) (readBytes mem np ce.cipher.nonce_size) 0 (plainsOf mem iovs))) tp (tagFn ce.cipher.tag_size (readBytes mem ce.key_ptr ce.key_len) (readBytes mem np ce.cipher.nonce_size) (readBytes mem ap al) (catSegs (xorSegs (readBytes mem ce.key_ptr ce.key_len) (readBytes mem np ce.cipher.nonce_size) 0 (plainsOf mem iovs))))) iovs (plainsOf mem iovs)).length = (writeBytes (writeSegs mem iovs (xorSegs (readBytes mem ce.key_ptr ce.key_len) (readBytes mem np ce.cipher.nonce_size) 0 (plainsOf mem iovs))) tp (tagFn ce.cipher.tag_size (readBytes mem ce.key_ptr ce.key_len) (readBytes mem np ce.cipher.nonce_size) (readBytes mem ap al) (catSegs (xorSegs (readBytes mem ce.key_ptr ce.key_len) (readBytes mem np ce.cipher.nonce_size) 0 (plainsOf mem iovs))))).length :=
    writeSegs_length iovs _ (writeBytes (writeSegs mem iovs (xorSegs (readBytes mem ce.key_ptr ce.key_len) (readBytes mem np ce.cipher.nonce_size) 0 (plainsOf mem iovs))) tp (tagFn ce.cipher.tag_size (readBytes mem ce.key_ptr ce.key_len) (readBytes mem np ce.cipher.nonce_size) (readBytes mem ap al) (catSegs (xorSegs (readBytes mem ce.key_ptr ce.key_len) (readBytes mem np ce.cipher.nonce_size) 0 (plainsOf mem iovs))))) hfitp hb2
  refine ⟨by rw [hE], by rw [hE]; exact hmem2len, ?_, ?_, ?_⟩
  · rw [hE]
    simp only
    rw [hD]
    simp
  · rw [hE]
    simp only
    rw [hD]
    simp [hplainsF]
  · rw [hE]
    simp only
    rw [hD]
    simp [hlenF, hmem2len]

/-- C4 witness: the spec's scenario — zero key, zero nonce, empty AAD,
the 17 plaintext bytes of "hello wasi crypto" split after byte 5 across
two iovecs — encrypts successfully with length preserved, and
decrypting the result with the same arguments restores both iovec
regions to the original plaintext. -/
theorem aead_encrypt_decrypt_roundtrip_witness :
    (crypto_aead_encrypt ctxRT memRT 0 16 12 0 0 44 2 28 16).1 = .ok () ∧
    (crypto_aead_encrypt ctxRT memRT 0 16 12 0 0 44 2 28 16).2.length = memRT.length ∧
    (crypto_aead_decrypt ctxRT (crypto_aead_encrypt ctxRT memRT 0 16 12 0 0 44 2 28 16).2
      0 16 12 0 0 44 2 28 16).1 = .ok () ∧
    plainsOf (crypto_aead_decrypt ctxRT (crypto_aead_encrypt ctxRT memRT 0 16 12 0 0 44 2 28 16).2
      0 16 12 0 0 44 2 28 16).2 [⟨60, 5⟩, ⟨65, 12⟩] = plainsOf memRT [⟨60, 5⟩, ⟨65, 12⟩] ∧
    (crypto_aead_decrypt ctxRT (crypto_aead_encrypt ctxRT memRT 0 16 12 0 0 44 2 28 16).2
      0 16 12 0 0 44 2 28 16).2.length = memRT.length :=
  aead_encrypt_decrypt_roundtrip ctxRT memRT 0 16 12 0 0 44 2 28 16
    ⟨a128gcmSpec, 0, 16, a128gcmSpec⟩ [⟨60, 5⟩, ⟨65, 12⟩]
    rfl (by decide) rfl (by decide) rfl (by decide) (by decide) rfl rfl
    (by decide) (by decide) (by decide)
